import Mathlib

/-!
# Verification of the UAV path-planning backend

A shallow embedding, in Lean 4, of the planning subsystem of the
UAVPathOptimizer backend (`backend/app/sim/...`), together with theorems
settling the specification claims about it.

Conventions of the embedding:
* Python floats are modelled as exact rationals (`ℚ`); the real-valued
  heuristic formulas (square roots, logarithms) are modelled over `ℝ`.
* Python lists are Lean `List`s; Python dicts keyed by strings are modelled
  as functions `String → Option _`.
* In-place mutation (`drone.path`, the planner caches `_last_tick`,
  `_last_goal`, `_grid`) is modelled by explicit state passing.
* Fallible Python code (exceptions) is modelled with `Except`.
-/

namespace UAV

/-- `models.Vec3`: a 3-vector of floats (here exact rationals). -/
structure Vec3 where
  x : ℚ
  y : ℚ
  z : ℚ
deriving DecidableEq, Repr

/-- `models.Building`: an axis-aligned box obstacle. -/
structure Building where
  id : String
  center : Vec3
  size : Vec3
deriving DecidableEq, Repr

/-- `models.World`: footprint size `(W, H, Ceiling)` plus obstacles. -/
structure World where
  size : ℚ × ℚ × ℚ
  obstacles : List Building
deriving DecidableEq, Repr

/-- `models.Drone`: id, position, velocity, waypoint path, optional target. -/
structure Drone where
  id : String
  pos : Vec3
  vel : Vec3
  path : List Vec3
  target : Option Vec3
deriving DecidableEq, Repr

/-! ## Grid cache of the bandit planner (`bandit_mha_star.py`)

`GridCacheBMHA.build` rasterises the world into a blocked mask and then runs
a two-pass (forward/backward) Chamfer scan computing, for every cell, the
L1 distance in cells to the nearest blocked cell, scaled by the cell size
into `clearance_m`. -/

/-- Grid coordinates `(gx, gy)`; Python uses unbounded ints, off-grid
coordinates are meaningful inputs of `is_blocked`. -/
abbrev Coord : Type := ℤ × ℤ

/-- `_rect_overlaps_cell(cx, cy, w, d, cell_x, cell_y, cell_size)`:
axis-separation test between the inflated obstacle rectangle and the square
of cell `(cellX, cellY)`. -/
def rectOverlapsCell (cx cy w d : ℚ) (cellX cellY : ℤ) (cellSize : ℚ) : Bool :=
  let rx0 := cx - w * (1/2)
  let rx1 := cx + w * (1/2)
  let ry0 := cy - d * (1/2)
  let ry1 := cy + d * (1/2)
  let cx0 := (cellX : ℚ) * cellSize
  let cx1 := ((cellX : ℚ) + 1) * cellSize
  let cy0 := (cellY : ℚ) * cellSize
  let cy1 := ((cellY : ℚ) + 1) * cellSize
  !(decide (rx1 ≤ cx0) || decide (rx0 ≥ cx1) || decide (ry1 ≤ cy0) || decide (ry0 ≥ cy1))

/-- `w_cells = max(1, int(world.size[0] // cell_size))`. -/
def wCellsOf (world : World) (cellSize : ℚ) : ℕ :=
  (max 1 ⌊world.size.1 / cellSize⌋).toNat

/-- `h_cells = max(1, int(world.size[1] // cell_size))`. -/
def hCellsOf (world : World) (cellSize : ℚ) : ℕ :=
  (max 1 ⌊world.size.2.1 / cellSize⌋).toNat

/-- One obstacle `b` marks cell `(gx, gy)` blocked iff `(gx, gy)` lies in the
clamped candidate range `[xmin..xmax] × [ymin..ymax]` of `b` and the inflated
rectangle of `b` overlaps the cell square (the body of the rasterisation
loops of `GridCacheBMHA.build`). -/
def coversCell (cellSize inflate : ℚ) (wC hC : ℕ) (b : Building) (gx gy : ℕ) : Bool :=
  let cx := b.center.x
  let cy := b.center.y
  let w := b.size.x + 2 * inflate
  let d := b.size.y + 2 * inflate
  let xmin : ℤ := max 0 ⌊(cx - w * (1/2)) / cellSize⌋
  let xmax : ℤ := min ((wC : ℤ) - 1) ⌊(cx + w * (1/2)) / cellSize⌋
  let ymin : ℤ := max 0 ⌊(cy - d * (1/2)) / cellSize⌋
  let ymax : ℤ := min ((hC : ℤ) - 1) ⌊(cy + d * (1/2)) / cellSize⌋
  decide (xmin ≤ (gx : ℤ) ∧ (gx : ℤ) ≤ xmax ∧ ymin ≤ (gy : ℤ) ∧ (gy : ℤ) ≤ ymax) &&
    rectOverlapsCell cx cy w d (gx : ℤ) (gy : ℤ) cellSize

/-- The blocked mask of `GridCacheBMHA.build` as a function of the linear
cell index `i = gy * w_cells + gx`: the rasterisation loops set a cell
exactly when some obstacle covers it. -/
def blockedIdx (world : World) (cellSize inflate : ℚ) (i : ℕ) : Bool :=
  let wC := wCellsOf world cellSize
  let hC := hCellsOf world cellSize
  world.obstacles.any (fun b => coversCell cellSize inflate wC hC b (i % wC) (i / wC))

/-- The materialised `blocked` list of `GridCacheBMHA.build`. -/
def blockedListOf (world : World) (cellSize inflate : ℚ) : List Bool :=
  (List.range (wCellsOf world cellSize * hCellsOf world cellSize)).map
    (blockedIdx world cellSize inflate)

/-- `INF = 10**9`, the initial value of unblocked cells in the Chamfer scan. -/
def INFc : ℕ := 10 ^ 9

/-- Value of `dist[i]` after the forward Chamfer pass.  The pass scans
indices in increasing order, so the already-updated reads `dist[i-1]`
(left neighbour, exists when `i % w > 0`) and `dist[i-w]` (top neighbour,
exists when `w ≤ i`) are recursive calls; skipped `min`s keep the initial
value `INF`, which is neutral here because all values are `≤ INF`. -/
def fwd (w : ℕ) (blk : ℕ → Bool) (i : ℕ) : ℕ :=
  if blk i then 0
  else
    let leftv := if 0 < i % w then fwd w blk (i - 1) + 1 else INFc
    let upv := if 0 < w ∧ w ≤ i then fwd w blk (i - w) + 1 else INFc
    min (min INFc leftv) upv
termination_by i
decreasing_by
· rename_i hx
  have := Nat.mod_le i w
  omega
· omega

/-- Value of `dist[i]` after the backward Chamfer pass over the `fwd`
values.  The pass scans indices in decreasing order, so `dist[i+1]` (right
neighbour, exists when `i % w + 1 < w`) and `dist[i+w]` (bottom neighbour,
exists when `i + w < N`) are recursive calls; the `i < N` / `0 < w`
conjuncts restate the loop bounds of the source. -/
def bwd (w N : ℕ) (blk : ℕ → Bool) (i : ℕ) : ℕ :=
  if fwd w blk i = 0 then 0
  else
    let rightv := if i % w + 1 < w ∧ i < N then bwd w N blk (i + 1) + 1 else INFc
    let downv := if 0 < w ∧ i + w < N then bwd w N blk (i + w) + 1 else INFc
    min (min (fwd w blk i) rightv) downv
termination_by N - i
decreasing_by
· omega
· omega

/-- `GridCacheBMHA`: cached grid with inflated blocked mask and clearance
field in metres. -/
structure GridCacheBMHA where
  cell : ℚ
  w : ℕ
  h : ℕ
  blocked : List Bool
  clearance_m : List ℚ
deriving DecidableEq, Repr

/-- `GridCacheBMHA.build(world, cell_size, clearance_inflate_m)`. -/
def GridCacheBMHA.build (world : World) (cellSize inflate : ℚ) : GridCacheBMHA :=
  let wC := wCellsOf world cellSize
  let hC := hCellsOf world cellSize
  let N := wC * hC
  let blk := blockedIdx world cellSize inflate
  { cell := cellSize
    w := wC
    h := hC
    blocked := blockedListOf world cellSize inflate
    clearance_m := (List.range N).map (fun i => (bwd wC N blk i : ℚ) * cellSize) }

/-- `GridCacheBMHA.build_fallback`: blocked mask marks only the (clamped)
cell containing each obstacle centre; clearance is the constant
`cell_size * 2.0`. -/
def GridCacheBMHA.buildFallback (world : World) (cellSize inflate : ℚ) : GridCacheBMHA :=
  let wC := wCellsOf world cellSize
  let hC := hCellsOf world cellSize
  let N := wC * hC
  let centerCellIdx : Building → ℕ := fun b =>
    let gx : ℤ := max 0 (min ((wC : ℤ) - 1) ⌊b.center.x / cellSize⌋)
    let gy : ℤ := max 0 (min ((hC : ℤ) - 1) ⌊b.center.y / cellSize⌋)
    (gy * wC + gx).toNat
  { cell := cellSize
    w := wC
    h := hC
    blocked := (List.range N).map (fun i => world.obstacles.any (fun b => centerCellIdx b == i))
    clearance_m := List.replicate N (cellSize * 2) }

/-- `GridCacheBMHA.idx`. -/
def GridCacheBMHA.idx (g : GridCacheBMHA) (c : Coord) : ℤ :=
  c.2 * (g.w : ℤ) + c.1

/-- `GridCacheBMHA.is_blocked`: out-of-range coordinates count as blocked. -/
def GridCacheBMHA.isBlocked (g : GridCacheBMHA) (c : Coord) : Bool :=
  decide (c.1 < 0) || decide (c.2 < 0) || decide ((g.w : ℤ) ≤ c.1) ||
    decide ((g.h : ℤ) ≤ c.2) || g.blocked.getD (g.idx c).toNat false

/-- `GridCacheBMHA.to_world`: cell centre at altitude `z`. -/
def GridCacheBMHA.toWorld (g : GridCacheBMHA) (c : Coord) (z : ℚ) : Vec3 :=
  ⟨((c.1 : ℚ) + 1/2) * g.cell, ((c.2 : ℚ) + 1/2) * g.cell, z⟩

/-- `GridCacheBMHA.from_world`: clamped integer division. -/
def GridCacheBMHA.fromWorld (g : GridCacheBMHA) (x y : ℚ) : Coord :=
  (max 0 (min ((g.w : ℤ) - 1) ⌊x / g.cell⌋),
   max 0 (min ((g.h : ℤ) - 1) ⌊y / g.cell⌋))

/-! ## Grid cache of the plain grid A* (`a_star_grid.py`) -/

/-- `a_star_grid.GridCache` (fields `cell, width, height, blocked,
max_building_z`). Only `is_blocked` is needed by the claims. -/
structure GridCacheA where
  cell : ℚ
  width : ℕ
  height : ℕ
  blocked : List Bool
  max_building_z : ℚ
deriving DecidableEq, Repr

/-- `GridCache.is_blocked` of `a_star_grid.py` (same logic as the bandit
variant). -/
def GridCacheA.isBlocked (g : GridCacheA) (c : Coord) : Bool :=
  decide (c.1 < 0) || decide (c.2 < 0) || decide ((g.width : ℤ) ≤ c.1) ||
    decide ((g.height : ℤ) ≤ c.2) ||
    g.blocked.getD (c.2 * (g.width : ℤ) + c.1).toNat false

/-! ## Nearest-free spiral search

`BanditMHAStar._nearest_free` and `AStarGrid._nearest_free` share the same
ring-scanning code; they differ only in the ring bound: `range(1, 50)`
(radii `1..49`) for the bandit planner, `range(1, 20)` (radii `1..19`) for
plain grid A*.  The shared body is `nearestFreeScan` below, with the source
duplicated per planner in the two wrappers. -/

/-- Integer interval `[lo, hi)` in increasing order (Python `range`). -/
def rangeInt (lo hi : ℤ) : List ℤ :=
  (List.range (hi - lo).toNat).map (fun k : ℕ => lo + (k : ℤ))

/-- The cells of the radius-`r` square ring around `g0`, in exactly the
order the source scans them: first `dx` from `-r` to `r` with `dy ∈ {-r, r}`,
then `dy` from `-r+1` to `r-1` with `dx ∈ {-r, r}`. -/
def ringCells (g0 : Coord) (r : ℤ) : List Coord :=
  ((rangeInt (-r) (r + 1)).flatMap
      (fun dx => [(g0.1 + dx, g0.2 + (-r)), (g0.1 + dx, g0.2 + r)])) ++
    ((rangeInt (-r + 1) r).flatMap
      (fun dy => [(g0.1 + (-r), g0.2 + dy), (g0.1 + r, g0.2 + dy)]))

/-- The whole scan sequence: the rings of radii `1..rMax` concatenated in
increasing radius order. -/
def spiralCells (g0 : Coord) (rMax : ℕ) : List Coord :=
  ((List.range rMax).map (fun k : ℕ => ((k : ℤ) + 1))).flatMap (ringCells g0)

/-- `_nearest_free(g0, grid)` with ring radii `1..rMax`: return `g0` if it
is free; otherwise the first non-blocked cell in ring-scan order; `g0` if
every scanned cell is blocked. -/
def nearestFreeScan (isBlk : Coord → Bool) (g0 : Coord) (rMax : ℕ) : Coord :=
  if !(isBlk g0) then g0
  else
    match (spiralCells g0 rMax).find? (fun c => !(isBlk c)) with
    | some c => c
    | none => g0

/-- `BanditMHAStar._nearest_free`: `for r in range(1, 50)`. -/
def BanditMHAStar.nearestFree (grid : GridCacheBMHA) (g0 : Coord) : Coord :=
  nearestFreeScan grid.isBlocked g0 49

/-- `AStarGrid._nearest_free`: `for r in range(1, 20)`. -/
def AStarGrid.nearestFree (grid : GridCacheA) (g0 : Coord) : Coord :=
  nearestFreeScan grid.isBlocked g0 19

/-- Chebyshev (ring) distance between two cells: the radius of the ring of
`c` around `d`. -/
def chebDist (c d : Coord) : ℕ :=
  max (c.1 - d.1).natAbs (c.2 - d.2).natAbs

/-! ## Planner instances and the registry (`registry.py`) -/

/-- Mutable per-instance state of `BanditMHAStar`: `_grid`, `_last_tick`,
`_last_goal` (`_replan_every` is the constant `20`; `_push_counter` is
per-plan search state). -/
structure BanditMHAStarState where
  grid : Option GridCacheBMHA
  lastTick : String → Option ℤ
  lastGoal : String → Option (ℚ × ℚ)

/-- A freshly constructed `BanditMHAStar()`. -/
def BanditMHAStar.initState : BanditMHAStarState :=
  { grid := none, lastTick := fun _ => none, lastGoal := fun _ => none }

/-- Mutable per-instance state of `AStarGrid`: `_grid_cache`,
`_last_planned_tick`, `_last_target_key` (`_replan_every` is the
constant `10`). -/
structure AStarGridState where
  gridCache : Option GridCacheA
  lastPlannedTick : String → Option ℤ
  lastTargetKey : String → Option (ℚ × ℚ)

/-- A freshly constructed `AStarGrid()`. -/
def AStarGrid.initState : AStarGridState :=
  { gridCache := none, lastPlannedTick := fun _ => none, lastTargetKey := fun _ => none }

/-- A planner instance as produced by calling a registered constructor.
`AStarGrid` exists in the codebase but, as the registry theorem shows, is
never produced by `build_algorithm`. -/
inductive PlannerInstance where
  | straightLine : PlannerInstance
  | banditMHAStar (st : BanditMHAStarState) : PlannerInstance
  | aStarGrid (st : AStarGridState) : PlannerInstance

/-- `_REGISTRY`: insertion-ordered mapping from algorithm name to (the
result of calling) its constructor: `{StraightLine.name: StraightLine,
BanditMHAStar.name: BanditMHAStar}`. -/
def registryEntries : List (String × PlannerInstance) :=
  [("straight_line", .straightLine),
   ("bandit_mha_star", .banditMHAStar BanditMHAStar.initState)]

/-- `available_algorithms() = list(_REGISTRY.keys())`. -/
def availableAlgorithms : List String :=
  registryEntries.map Prod.fst

/-- `build_algorithm(name)`: raises `KeyError` (modelled as `Except.error`
carrying the offending name) when `name` is not registered, else calls the
registered constructor. -/
def buildAlgorithm (name : String) : Except String PlannerInstance :=
  match registryEntries.find? (fun e => e.1 == name) with
  | some e => .ok e.2
  | none => .error name

/-! ## The straight-line planner (`straight_line.py`)

`StraightLine.plan_paths` reads `params.speed` (unused) and, for every drone
with a target, replaces its path by the single waypoint `[target]`;
targetless drones are untouched. -/

/-- `StraightLine.plan_paths` as a transformer of the drone list. -/
def StraightLine.planPaths (drones : List Drone) : List Drone :=
  drones.map (fun d =>
    match d.target with
    | some t => { d with path := [t] }
    | none => d)

/-! ## Lazy heap pop (`BanditMHAStar._pop_valid`)

The heap is modelled as the list of its entries `(key, push_counter, node)`
in pop order (`heapq.heappop` always removes the least entry, so the claims
about the filtering logic are independent of the heap's internal shape).
Entries are immutable once pushed: `_push` only ever appends to a heap, so
the model has no decrease-key operation, matching the source. -/

/-- `_pop_valid` on one queue: pop until an entry is found whose node is not
closed and whose recomputed current f-value `curF n` has not grown past the
stored key plus the `1e-12` slack (`eps`); return `none` when the heap runs
out.  `curF` stands for the recomputation of `f_k` from the current
`g_cost` (the `q_idx` dispatch in the source). -/
def popValid {α : Type} [LinearOrder α] [Add α] (closed : Coord → Bool)
    (curF : Coord → α) (eps : α) :
    List (α × ℕ × Coord) → Option (α × ℕ × Coord)
  | [] => none
  | (k, c, n) :: t =>
    if closed n then popValid closed curF eps t
    else if k + eps < curF n then popValid closed curF eps t
    else some (k, c, n)

/-! ## Bandit queue selection (`BanditMHAStar._choose_queue_ucb`) -/

/-- The `avail` list: indices of the non-empty queues, in ascending order
(the source appends 0, 1, 2, 3 in this order, each guarded by
non-emptiness). -/
def availQueues (ne : Fin 4 → Bool) : List (Fin 4) :=
  (if ne 0 then [0] else []) ++ (if ne 1 then [1] else []) ++
    (if ne 2 then [2] else []) ++ (if ne 3 then [3] else [])

/-- The final loop of `_choose_queue_ucb`: running best index and best
score, updated whenever a strictly larger score appears (so ties keep the
earlier index). -/
def pickBest {α : Type} [LinearOrder α] (score : Fin 4 → α) :
    List (Fin 4) → Fin 4 → α → Fin 4
  | [], b, _ => b
  | i :: t, b, bs =>
    if bs < score i then pickBest score t i (score i) else pickBest score t b bs

/-- `_choose_queue_ucb`, parameterised by the per-arm score function
(instantiated with `ucbScore` in the theorems): forced anchor, then the
empty-`avail` fallback to 0, then the zero-pull cold start (first in
`avail` order), then the arg-max loop started at `best_i = avail[0]`,
`best_score = -1e18`. -/
def chooseQueueUcb {α : Type} [LinearOrderedField α] (forceAnchor : Bool)
    (ne : Fin 4 → Bool) (pulls : Fin 4 → ℕ) (score : Fin 4 → α) : Fin 4 :=
  if forceAnchor && ne 0 then 0
  else
    match availQueues ne with
    | [] => 0
    | a :: rest =>
      match (a :: rest).find? (fun i => pulls i == 0) with
      | some i => i
      | none => pickBest score (a :: rest) a (-(10 ^ 18 : α))

/-- The UCB1 score of arm `i`:
`reward_sum[i] / max(1, pulls[i]) + c * sqrt(log(max(1, total_pulls)) / pulls[i])`.
The source only evaluates it when `pulls[i] ≥ 1`; in `ℝ`, division by zero
yields 0, which is harmless because that case is intercepted by the
cold-start rule. -/
noncomputable def ucbScore (c : ℝ) (rewardSum : Fin 4 → ℝ) (pulls : Fin 4 → ℕ)
    (totalPulls : ℕ) (i : Fin 4) : ℝ :=
  rewardSum i / ((max 1 (pulls i) : ℕ) : ℝ) +
    c * Real.sqrt (Real.log ((max 1 totalPulls : ℕ) : ℝ) / ((pulls i : ℕ) : ℝ))

/-! ## Clearance-modulated edge times and the anchor heuristic
(`_speed_from_clearance`, `_h_euclid_time`, the neighbour loop of
`_plan_one`)

These are real-valued (square roots), so they live in `ℝ`. `clr` stands for
the lookup `gcache.clearance_m[gcache.idx(·)]`. -/

/-- The neighbourhoods `N4` and `N8` of `_plan_one`, as offset lists. -/
def n4Offsets : List Coord := [(-1, 0), (1, 0), (0, -1), (0, 1)]

/-- `N8 = N4 + diagonals`. -/
def n8Offsets : List Coord := n4Offsets ++ [(-1, -1), (1, -1), (-1, 1), (1, 1)]

/-- `_speed_from_clearance(clr, v_min, v_max, kappa)`:
`v_min + (v_max - v_min) * clr/(clr+kappa)` clamped into `[v_min, v_max]`;
`kappa ≤ 0` short-circuits to `v_max`. -/
noncomputable def speedFromClearance (clr vmin vmax kappa : ℝ) : ℝ :=
  if kappa ≤ 0 then vmax
  else max vmin (min vmax (vmin + (vmax - vmin) * (clr / (clr + kappa))))

/-- `_h_euclid_time(n, t)`: Euclidean cell distance times `cell`, divided by
`max(1e-6, v_max)`. -/
noncomputable def hEuclidTime (cell vmax : ℝ) (n t : Coord) : ℝ :=
  Real.sqrt (((n.1 - t.1 : ℤ) : ℝ) ^ 2 + ((n.2 - t.2 : ℤ) : ℝ) ^ 2) * cell /
    max (1 / 1000000) vmax

/-- Edge time of the expansion loop (the default `edge_samples ≤ 2` branch):
axial edges have length `cell`, diagonal edges `√2·cell`; the effective
speed is the minimum of the endpoint clearance speeds; division is guarded
by `max(1e-6, ·)`. -/
noncomputable def edgeTime (cell vmin vmax kappa : ℝ) (clr : Coord → ℝ)
    (u v : Coord) : ℝ :=
  let length := if u.1 = v.1 ∨ u.2 = v.2 then cell else Real.sqrt 2 * cell
  let veff := min (speedFromClearance (clr u) vmin vmax kappa)
    (speedFromClearance (clr v) vmin vmax kappa)
  length / max (1 / 1000000) veff

/-- Total traversal time of a cell path: the sum of the edge times of its
consecutive pairs. -/
noncomputable def pathTime (cell vmin vmax kappa : ℝ) (clr : Coord → ℝ) :
    List Coord → ℝ
  | u :: v :: rest =>
    edgeTime cell vmin vmax kappa clr u v + pathTime cell vmin vmax kappa clr (v :: rest)
  | _ => 0

/-- One grid move: the offset from `u` to `v` is one of the eight
neighbour offsets (the 4-connected moves are among them). -/
def isStep (u v : Coord) : Prop := (v.1 - u.1, v.2 - u.2) ∈ n8Offsets

instance (u v : Coord) : Decidable (isStep u v) :=
  inferInstanceAs (Decidable ((v.1 - u.1, v.2 - u.2) ∈ n8Offsets))

/-! ## Parameters and their conversion (`plan_paths` / `_plan_one` preludes)

`params` is a client-supplied dict; values can be numbers, strings or
booleans.  The planners read entries with `p.get(key, default)` and then
convert with the Python builtins `float`, `int`, `bool`.  The builtins are
part of the language semantics, not of the repository: `float`/`int` raise
on non-numeric strings, `bool` never raises.  The string parsers below
model the builtins on plain decimal literals (no exponents, `inf`/`nan`,
underscores or surrounding whitespace), which covers the values these
claims are about; a non-numeric string such as "fast" is rejected both here
and in Python. -/

/-- A Python parameter value. -/
inductive PVal where
  | num (q : ℚ)
  | pstr (s : String)
  | pbool (b : Bool)
deriving DecidableEq

/-- The dict of recognized parameters. -/
def Params : Type := String → Option PVal

/-- `p.get(key, default)`. -/
def getParam (p : Params) (k : String) (dflt : PVal) : PVal :=
  (p k).getD dflt

/-- Digit run to a natural number; `none` on empty or non-digit input. -/
def digitsToNat (l : List Char) : Option ℕ :=
  if l ≠ [] ∧ l.all Char.isDigit then
    some (l.foldl (fun a c => a * 10 + (c.toNat - 48)) 0)
  else none

/-- Decimal literal parsing for Python `float(str)`: optional sign, then
either `digits`, `digits.digits`, `digits.` or `.digits`. -/
def parseFloatQ (s : String) : Option ℚ :=
  let signRest : ℚ × List Char :=
    match s.data with
    | c :: t => if c = '-' then (-1, t) else if c = '+' then (1, t) else (1, s.data)
    | [] => (1, [])
  let sign := signRest.1
  let rest := signRest.2
  match rest.span (fun c => c ≠ '.') with
  | (ipart, []) => (digitsToNat ipart).map (fun n => sign * (n : ℚ))
  | (ipart, _dot :: fpart) =>
    if ipart.all Char.isDigit ∧ fpart.all Char.isDigit ∧ (ipart ≠ [] ∨ fpart ≠ []) then
      some (sign * ((ipart.foldl (fun a c => a * 10 + (c.toNat - 48)) 0 : ℕ) +
        (fpart.foldl (fun a c => a * 10 + (c.toNat - 48)) 0 : ℕ) / (10 : ℚ) ^ fpart.length))
    else none

/-- Integer literal parsing for Python `int(str)`: optional sign then
digits. -/
def parseIntZ (s : String) : Option ℤ :=
  let signRest : ℤ × List Char :=
    match s.data with
    | c :: t => if c = '-' then (-1, t) else if c = '+' then (1, t) else (1, s.data)
    | [] => (1, [])
  (digitsToNat signRest.2).map (fun n => signRest.1 * (n : ℤ))

/-- Python `float(v)`: numbers pass through, booleans become 0/1, strings
are parsed; a non-numeric string raises `ValueError` (modelled as
`Except.error` carrying the string). -/
def pyFloat : PVal → Except String ℚ
  | .num q => .ok q
  | .pbool b => .ok (if b then 1 else 0)
  | .pstr s =>
    match parseFloatQ s with
    | some q => .ok q
    | none => .error s

/-- Python `int(v)`: floats truncate toward zero, booleans become 0/1,
strings must be integer literals. -/
def pyInt : PVal → Except String ℤ
  | .num q => .ok (q.num / (q.den : ℤ))
  | .pbool b => .ok (if b then 1 else 0)
  | .pstr s =>
    match parseIntZ s with
    | some n => .ok n
    | none => .error s

/-- Python `bool(v)` (truthiness); never raises. -/
def pyBool : PVal → Bool
  | .num q => decide (q ≠ 0)
  | .pstr s => decide (s ≠ "")
  | .pbool b => b

/-- The parameters read at the top of `BanditMHAStar.plan_paths`
(lines 145–148 and 162): `grid_cell_m`, `clearance_m`, `cruise_alt_m`
defaulting to 20.0, 6.0, 60.0 and `tick` defaulting to 0. -/
structure OuterParams where
  cell : ℚ
  inflate : ℚ
  cruiseAlt : ℚ
  tick : ℤ

/-- Conversion of the outer parameters, in source order; the first failing
`float()`/`int()` aborts `plan_paths`. -/
def parseOuterParams (p : Params) : Except String OuterParams := do
  let cell ← pyFloat (getParam p "grid_cell_m" (.num 20))
  let inflate ← pyFloat (getParam p "clearance_m" (.num 6))
  let cruise ← pyFloat (getParam p "cruise_alt_m" (.num 60))
  let tick ← pyInt (getParam p "tick" (.num 0))
  return ⟨cell, inflate, cruise, tick⟩

/-- The parameters read at the top of `_plan_one` (lines 184–202), with the
documented defaults. -/
structure PlanOneParams where
  vMax : ℚ
  vMin : ℚ
  clrKappa : ℚ
  edgeSamples : ℤ
  neighbors8 : Bool
  wClear : ℚ
  wLandmark : ℚ
  wBearing : ℚ
  bearingGamma : ℚ
  ucbC : ℚ
  anchorPeriod : ℤ
  maxExpansions : ℤ
  suboptW : ℚ

/-- Conversion of the `_plan_one` parameters, in source order. -/
def parsePlanOneParams (p : Params) : Except String PlanOneParams := do
  let vmax ← pyFloat (getParam p "v_max" (.num 20))
  let vmin ← pyFloat (getParam p "v_min" (.num 4))
  let clrK ← pyFloat (getParam p "clr_kappa_m" (.num 8))
  let samples ← pyInt (getParam p "edge_samples" (.num 2))
  let use8 := pyBool (getParam p "neighbors8" (.pbool false))
  let wclear ← pyFloat (getParam p "w_clear" (.num (23 / 20)))
  let wlandm ← pyFloat (getParam p "w_landmark" (.num 1))
  let wbear ← pyFloat (getParam p "w_bearing" (.num (11 / 10)))
  let gbear ← pyFloat (getParam p "bearing_gamma" (.num (1 / 5)))
  let ucbc ← pyFloat (getParam p "ucb_c" (.num (4 / 5)))
  let aper ← pyInt (getParam p "anchor_period" (.num 6))
  let mexp ← pyInt (getParam p "max_expansions" (.num 2500))
  let subw ← pyFloat (getParam p "accept_suboptimal_w" (.num (21 / 20)))
  return ⟨vmax, vmin, clrK, samples, use8, wclear, wlandm, wbear, gbear, ucbc,
    aper, mexp, subw⟩

/-- Python `%` on integers: raises `ZeroDivisionError` on a zero modulus. -/
def pyMod (a b : ℤ) : Except String ℤ :=
  if b = 0 then .error "integer modulo by zero" else .ok (a % b)

/-- `forced_anchor = (expansions % anchor_period == 0)` (line 247 of the
search loop), as a fallible computation: with `anchor_period = 0` every
expansion raises. -/
def forcedAnchorAt (expansions anchorPeriod : ℤ) : Except String Bool := do
  let m ← pyMod expansions anchorPeriod
  return decide (m = 0)

/-! ## The planner façade loops (`plan_paths` of both grid planners)

The inner path search `_plan_one` (after its parameter prelude) is taken as
a function parameter `planOne` / `searchFn`: the façade claims (replan
cadence, frame effects, cache lifecycle, parameter errors) hold for every
body, and the search's own numeric content is real-valued and settled by
the dedicated heuristic-level claims. -/

/-- `BanditMHAStar._replan_every`. -/
def banditReplanEvery : ℤ := 20

/-- `AStarGrid._replan_every`. -/
def astarReplanEvery : ℤ := 10

/-- Pointwise update of a dict, `m[k] = v`. -/
def updD {β : Type} (m : String → Option β) (k : String) (v : β) :
    String → Option β :=
  fun s => if s = k then some v else m s

/-- The replan condition of `BanditMHAStar.plan_paths` (lines 168–173):
never planned, goal changed, cadence elapsed, or empty path. -/
def needReplanB (st : BanditMHAStarState) (tick : ℤ) (d : Drone)
    (tgt : ℚ × ℚ) : Bool :=
  (st.lastTick d.id).isNone
    || decide (st.lastGoal d.id ≠ some tgt)
    || (match st.lastTick d.id with
        | some lt => decide (banditReplanEvery ≤ tick - lt)
        | none => true)
    || d.path.isEmpty

/-- Type of the abstracted `_plan_one` body: world, cached grid, start,
target, cruise altitude, raw params to path. -/
def PlanOneFnB : Type :=
  World → Option GridCacheBMHA → Vec3 → Vec3 → ℚ → Params → List Vec3

/-- The per-drone body of the `BanditMHAStar.plan_paths` loop: skip
targetless drones; replan when `needReplanB` fires, recording the new goal
and tick. -/
def planDroneB (planOne : PlanOneFnB) (world : World) (cruise : ℚ)
    (p : Params) (tick : ℤ) (st : BanditMHAStarState) (d : Drone) :
    Drone × BanditMHAStarState :=
  match d.target with
  | none => (d, st)
  | some tgt =>
    if needReplanB st tick d (tgt.x, tgt.y) then
      ({ d with path := planOne world st.grid d.pos tgt cruise p },
       { st with
          lastGoal := updD st.lastGoal d.id (tgt.x, tgt.y)
          lastTick := updD st.lastTick d.id tick })
    else (d, st)

/-- The drone loop of `BanditMHAStar.plan_paths`, threading the planner
state left to right. -/
def planLoopB (planOne : PlanOneFnB) (world : World) (cruise : ℚ)
    (p : Params) (tick : ℤ) :
    BanditMHAStarState → List Drone → List Drone × BanditMHAStarState
  | st, [] => ([], st)
  | st, d :: rest =>
    let r1 := planDroneB planOne world cruise p tick st d
    let r2 := planLoopB planOne world cruise p tick r1.2 rest
    (r1.1 :: r2.1, r2.2)

/-- The grid-rebuild step of `BanditMHAStar.plan_paths` (lines 150–160):
rebuild exactly when no grid is cached or the cached `cell` differs from
the requested one; oversized worlds coarsen the cell to `max(cell, 24)`.
The `try/except` around the oversized build falls back to
`build_fallback`, but `build` is total in this model, so that branch is
unreachable. -/
def ensureGridB (world : World) (cell inflate : ℚ)
    (g : Option GridCacheBMHA) : Option GridCacheBMHA :=
  let needBuild :=
    match g with
    | none => true
    | some gc => decide (gc.cell ≠ cell)
  if needBuild then
    let wC := (max 1 ⌊world.size.1 / max cell 1⌋).toNat
    let hC := (max 1 ⌊world.size.2.1 / max cell 1⌋).toNat
    if wC * hC > 300000 ∨ world.obstacles.length > 5000 then
      some (GridCacheBMHA.build world (max cell 24) inflate)
    else some (GridCacheBMHA.build world cell inflate)
  else g

/-- Type of the abstracted search body of `_plan_one` after its parameter
prelude succeeded. -/
def SearchFnB : Type :=
  World → Option GridCacheBMHA → Vec3 → Vec3 → ℚ → PlanOneParams → List Vec3

/-- `_plan_one` as a fallible computation: the parameter prelude
(lines 184–202) may raise; afterwards the search body runs. -/
def planOneE (searchFn : SearchFnB) (world : World)
    (grid : Option GridCacheBMHA) (start tgt : Vec3) (cruise : ℚ)
    (p : Params) : Except String (List Vec3) := do
  let pp ← parsePlanOneParams p
  return searchFn world grid start tgt cruise pp

/-- The drone loop of `BanditMHAStar.plan_paths` with the fallible
`_plan_one`: an exception raised while planning one drone aborts the whole
call. -/
def planLoopBE (searchFn : SearchFnB) (world : World) (cruise : ℚ)
    (p : Params) (tick : ℤ) :
    BanditMHAStarState → List Drone →
      Except String (List Drone × BanditMHAStarState)
  | st, [] => .ok ([], st)
  | st, d :: rest =>
    match d.target with
    | none => do
      let r ← planLoopBE searchFn world cruise p tick st rest
      return (d :: r.1, r.2)
    | some tgt =>
      if needReplanB st tick d (tgt.x, tgt.y) then do
        let path ← planOneE searchFn world st.grid d.pos tgt cruise p
        let st2 : BanditMHAStarState :=
          { st with
              lastGoal := updD st.lastGoal d.id (tgt.x, tgt.y)
              lastTick := updD st.lastTick d.id tick }
        let r ← planLoopBE searchFn world cruise p tick st2 rest
        return ({ d with path := path } :: r.1, r.2)
      else do
        let r ← planLoopBE searchFn world cruise p tick st rest
        return (d :: r.1, r.2)

/-- `BanditMHAStar.plan_paths` end to end, surfacing exceptions: parse the
outer parameters, rebuild the grid if needed, then run the drone loop. -/
def planPathsBE (searchFn : SearchFnB) (world : World) (p : Params)
    (st : BanditMHAStarState) (drones : List Drone) :
    Except String (List Drone × BanditMHAStarState) := do
  let op ← parseOuterParams p
  let st2 : BanditMHAStarState :=
    { st with grid := ensureGridB world op.cell op.inflate st.grid }
  planLoopBE searchFn world op.cruiseAlt p op.tick st2 drones

/-- The replan condition of `AStarGrid.plan_paths` (lines 87–91), cadence
10. -/
def needReplanA (st : AStarGridState) (tick : ℤ) (d : Drone)
    (tgt : ℚ × ℚ) : Bool :=
  (st.lastPlannedTick d.id).isNone
    || decide (st.lastTargetKey d.id ≠ some tgt)
    || (match st.lastPlannedTick d.id with
        | some lt => decide (astarReplanEvery ≤ tick - lt)
        | none => true)
    || d.path.isEmpty

/-- Type of the abstracted `AStarGrid._plan_one`. -/
def PlanOneFnA : Type :=
  Vec3 → Vec3 → Option GridCacheA → ℚ → Bool → List Vec3

/-- The per-drone body of the `AStarGrid.plan_paths` loop. -/
def planDroneA (planOne : PlanOneFnA) (cruise : ℚ) (diagonal : Bool)
    (tick : ℤ) (st : AStarGridState) (d : Drone) : Drone × AStarGridState :=
  match d.target with
  | none => (d, st)
  | some tgt =>
    if needReplanA st tick d (tgt.x, tgt.y) then
      ({ d with path := planOne d.pos tgt st.gridCache cruise diagonal },
       { st with
          lastPlannedTick := updD st.lastPlannedTick d.id tick
          lastTargetKey := updD st.lastTargetKey d.id (tgt.x, tgt.y) })
    else (d, st)

/-- The drone loop of `AStarGrid.plan_paths`. -/
def planLoopA (planOne : PlanOneFnA) (cruise : ℚ) (diagonal : Bool)
    (tick : ℤ) :
    AStarGridState → List Drone → List Drone × AStarGridState
  | st, [] => ([], st)
  | st, d :: rest =>
    let r1 := planDroneA planOne cruise diagonal tick st d
    let r2 := planLoopA planOne cruise diagonal tick r1.2 rest
    (r1.1 :: r2.1, r2.2)

/-! ## Session surface (`main.py` websocket loop and `engine.py`)

Only the pieces the cache-lifecycle claim needs: `set_world` assigns
`engine.world = msg.world` and `engine.tick = 0` and does **not** touch the
planner instance; each engine tick sets `params["tick"] = engine.tick` and
calls the current algorithm's `plan_paths`. -/

/-- The session state visible to the lifecycle claim: the engine's world
and tick plus the (bandit) planner instance state. -/
structure SessionState where
  world : World
  tick : ℤ
  bandit : BanditMHAStarState

/-- The `set_world` branch of `ws_endpoint`. -/
def sessionSetWorld (w : World) (s : SessionState) : SessionState :=
  { s with world := w, tick := 0 }

/-- One planning call as issued by `engine.run`: install `params["tick"]`,
call `plan_paths`, keep the updated planner state. -/
def sessionPlan (searchFn : SearchFnB) (p : Params) (drones : List Drone)
    (s : SessionState) : Except String (List Drone × SessionState) := do
  let r ← planPathsBE searchFn s.world
    (updD p "tick" (.num (s.tick : ℚ))) s.bandit drones
  return (r.1, { s with bandit := r.2 })

/-! ## Exact L1 cell distance (specification side of the clearance claim) -/

/-- L1 (Manhattan) distance between the cells of linear indices `i` and `j`
on a grid of width `w`. -/
def manh (w : ℕ) (i j : ℕ) : ℕ :=
  (((i % w : ℕ) : ℤ) - ((j % w : ℕ) : ℤ)).natAbs +
    (((i / w : ℕ) : ℤ) - ((j / w : ℕ) : ℤ)).natAbs

/-- The true L1 cell distance from `i` to the nearest blocked cell of the
grid, capped (like the scan's initial value) at `INF`; `INF` when no cell
is blocked. -/
def trueDistL1 (w N : ℕ) (blk : ℕ → Bool) (i : ℕ) : ℕ :=
  ((List.range N).filter (fun j => blk j)).foldr
    (fun j acc => min (manh w i j) acc) INFc


end UAV

namespace UAV

/-! # Theorems -/

/-- C9: `available_algorithms()` returns exactly the two names
`"straight_line"` and `"bandit_mha_star"`; `build_algorithm` succeeds
exactly on those names, returning a freshly initialised instance of the
corresponding planner, and raises `KeyError` on every other name — in
particular `"a_star_grid"` is not registered and no registry lookup ever
produces an `AStarGrid` instance. -/
theorem registry_two_algorithms_no_astar :
    availableAlgorithms = ["straight_line", "bandit_mha_star"] ∧
    (∀ name : String,
      (∃ inst, buildAlgorithm name = .ok inst) ↔
        (name = "straight_line" ∨ name = "bandit_mha_star")) ∧
    buildAlgorithm "straight_line" = .ok .straightLine ∧
    buildAlgorithm "bandit_mha_star" = .ok (.banditMHAStar BanditMHAStar.initState) ∧
    buildAlgorithm "a_star_grid" = .error "a_star_grid" ∧
    (∀ name : String,
      match buildAlgorithm name with
      | .ok (.aStarGrid _) => False
      | _ => True) := by
  refine ⟨rfl, ?_, rfl, rfl, rfl, ?_⟩
  · intro name
    by_cases h1 : "straight_line" = name
    · subst h1
      simp [buildAlgorithm, registryEntries]
    · by_cases h2 : "bandit_mha_star" = name
      · subst h2
        simp [buildAlgorithm, registryEntries]
      · simp only [buildAlgorithm, registryEntries, List.find?]
        rw [show (("straight_line" == name) = false) by simpa using h1,
          show (("bandit_mha_star" == name) = false) by simpa using h2]
        simp
        exact ⟨fun h => h1 h.symm, fun h => h2 h.symm⟩
  · intro name
    by_cases h1 : "straight_line" = name
    · subst h1
      simp [buildAlgorithm, registryEntries]
    · by_cases h2 : "bandit_mha_star" = name
      · subst h2
        simp [buildAlgorithm, registryEntries]
      · simp only [buildAlgorithm, registryEntries, List.find?]
        rw [show (("straight_line" == name) = false) by simpa using h1,
          show (("bandit_mha_star" == name) = false) by simpa using h2]
        simp

/-- C10: both the straight-line planner and the bandit planner façade leave
every drone's `id`, `pos`, `vel` and `target` untouched, and leave drones
without a target entirely unchanged; only `path` is ever replaced.  (The
world and the params dict are read-only inputs of the embedding, matching a
source that never writes to them.) -/
theorem plan_paths_mutates_only_path :
    ∀ (planOne : PlanOneFnB) (world : World) (cruise : ℚ) (p : Params)
      (tick : ℤ) (st : BanditMHAStarState) (drones : List Drone),
      List.Forall₂
        (fun d d2 : Drone =>
          d2.id = d.id ∧ d2.pos = d.pos ∧ d2.vel = d.vel ∧ d2.target = d.target ∧
            (match d.target with | none => d2 = d | some _ => True))
        drones (planLoopB planOne world cruise p tick st drones).1 ∧
      ∀ ds : List Drone,
        List.Forall₂
          (fun d d2 : Drone =>
            d2.id = d.id ∧ d2.pos = d.pos ∧ d2.vel = d.vel ∧ d2.target = d.target ∧
              (match d.target with | none => d2 = d | some _ => True))
          ds (StraightLine.planPaths ds) := by
  intro planOne world cruise p tick st drones
  constructor
  · induction drones generalizing st with
    | nil => exact List.Forall₂.nil
    | cons d rest ih =>
      refine List.Forall₂.cons ?_ (ih _)
      unfold planDroneB
      match h : d.target with
      | none => simp [h]
      | some tgt =>
        by_cases hc : needReplanB st tick d (tgt.x, tgt.y) = true <;>
          simp [h, hc]
  · intro ds
    induction ds with
    | nil => exact List.Forall₂.nil
    | cons d rest ih =>
      refine List.Forall₂.cons ?_ ih
      match h : d.target with
      | none => simp [h]
      | some tgt => simp [h]

/-- C6: the lazy pop returns an entry only when its node is not closed and
the recomputed current f-value has not grown past the stored key plus the
`1e-12` slack; every entry popped before it fails one of the two
conditions and is discarded without being expanded (the surviving suffix of
the heap is untouched — entries are never mutated, so there is no
decrease-key). -/
theorem pop_valid_first_valid_entry :
    ∀ {α : Type} [LinearOrder α] [Add α] (closed : Coord → Bool)
      (curF : Coord → α) (eps : α) (heap : List (α × ℕ × Coord)),
      match popValid closed curF eps heap with
      | some e =>
        closed e.2.2 = false ∧ curF e.2.2 ≤ e.1 + eps ∧
          ∃ t₁ t₂, heap = t₁ ++ e :: t₂ ∧
            ∀ e2 ∈ t₁, closed e2.2.2 = true ∨ e2.1 + eps < curF e2.2.2
      | none => ∀ e2 ∈ heap, closed e2.2.2 = true ∨ e2.1 + eps < curF e2.2.2 := by
  intro α _ _ closed curF eps heap
  induction heap with
  | nil => simp [popValid]
  | cons hd t ih =>
    obtain ⟨k, c, n⟩ := hd
    by_cases h1 : closed n = true
    · rw [show popValid closed curF eps ((k, c, n) :: t) = popValid closed curF eps t by
        simp [popValid, h1]]
      match hres : popValid closed curF eps t with
      | some e =>
        rw [hres] at ih
        obtain ⟨hc, hf, t₁, t₂, ht, hinv⟩ := ih
        refine ⟨hc, hf, (k, c, n) :: t₁, t₂, by simp [ht], ?_⟩
        intro e2 he2
        rcases List.mem_cons.mp he2 with h | h
        · subst h; exact Or.inl h1
        · exact hinv e2 h
      | none =>
        rw [hres] at ih
        intro e2 he2
        rcases List.mem_cons.mp he2 with h | h
        · subst h; exact Or.inl h1
        · exact ih e2 h
    · by_cases h2 : k + eps < curF n
      · rw [show popValid closed curF eps ((k, c, n) :: t) = popValid closed curF eps t by
          simp [popValid, h1, h2]]
        match hres : popValid closed curF eps t with
        | some e =>
          rw [hres] at ih
          obtain ⟨hc, hf, t₁, t₂, ht, hinv⟩ := ih
          refine ⟨hc, hf, (k, c, n) :: t₁, t₂, by simp [ht], ?_⟩
          intro e2 he2
          rcases List.mem_cons.mp he2 with h | h
          · subst h; exact Or.inr h2
          · exact hinv e2 h
        | none =>
          rw [hres] at ih
          intro e2 he2
          rcases List.mem_cons.mp he2 with h | h
          · subst h; exact Or.inr h2
          · exact ih e2 h
      · rw [show popValid closed curF eps ((k, c, n) :: t) = some (k, c, n) by
          simp [popValid, h1, h2]]
        exact ⟨by simpa using h1, le_of_not_lt h2, [], t, rfl, by simp⟩

/-- C4: for a drone with a target, both grid planners replan exactly when
the drone was never planned, the recorded goal differs from the current
target's `(x, y)`, `tick - last_tick ≥ replan_every` (20 for the bandit
planner, 10 for plain grid A*), or the path is empty; a replan installs the
new path and records the goal and tick, and otherwise drone and state are
returned unchanged. -/
theorem replan_exactly_when_condition_fires :
    (∀ (planOne : PlanOneFnB) (world : World) (cruise : ℚ) (p : Params)
        (tick : ℤ) (st : BanditMHAStarState) (d : Drone) (tgt : Vec3),
      d.target = some tgt →
      ((st.lastTick d.id = none ∨ st.lastGoal d.id ≠ some (tgt.x, tgt.y) ∨
          (∃ lt, st.lastTick d.id = some lt ∧ banditReplanEvery ≤ tick - lt) ∨
          d.path = []) →
        planDroneB planOne world cruise p tick st d =
          ({ d with path := planOne world st.grid d.pos tgt cruise p },
           { st with
              lastGoal := updD st.lastGoal d.id (tgt.x, tgt.y)
              lastTick := updD st.lastTick d.id tick })) ∧
      (¬(st.lastTick d.id = none ∨ st.lastGoal d.id ≠ some (tgt.x, tgt.y) ∨
          (∃ lt, st.lastTick d.id = some lt ∧ banditReplanEvery ≤ tick - lt) ∨
          d.path = []) →
        planDroneB planOne world cruise p tick st d = (d, st))) ∧
    (∀ (planOne : PlanOneFnA) (cruise : ℚ) (diagonal : Bool) (tick : ℤ)
        (st : AStarGridState) (d : Drone) (tgt : Vec3),
      d.target = some tgt →
      ((st.lastPlannedTick d.id = none ∨ st.lastTargetKey d.id ≠ some (tgt.x, tgt.y) ∨
          (∃ lt, st.lastPlannedTick d.id = some lt ∧ astarReplanEvery ≤ tick - lt) ∨
          d.path = []) →
        planDroneA planOne cruise diagonal tick st d =
          ({ d with path := planOne d.pos tgt st.gridCache cruise diagonal },
           { st with
              lastPlannedTick := updD st.lastPlannedTick d.id tick
              lastTargetKey := updD st.lastTargetKey d.id (tgt.x, tgt.y) })) ∧
      (¬(st.lastPlannedTick d.id = none ∨ st.lastTargetKey d.id ≠ some (tgt.x, tgt.y) ∨
          (∃ lt, st.lastPlannedTick d.id = some lt ∧ astarReplanEvery ≤ tick - lt) ∨
          d.path = []) →
        planDroneA planOne cruise diagonal tick st d = (d, st))) := by
  constructor
  · intro planOne world cruise p tick st d tgt htgt
    have key : needReplanB st tick d (tgt.x, tgt.y) = true ↔
        (st.lastTick d.id = none ∨ st.lastGoal d.id ≠ some (tgt.x, tgt.y) ∨
          (∃ lt, st.lastTick d.id = some lt ∧ banditReplanEvery ≤ tick - lt) ∨
          d.path = []) := by
      unfold needReplanB
      match hlt : st.lastTick d.id with
      | none => simp [hlt]
      | some lt => simp [hlt, List.isEmpty_iff, or_assoc]
    constructor
    · intro hcond
      unfold planDroneB
      rw [htgt]
      simp only [key.mpr hcond, if_true]
    · intro hcond
      unfold planDroneB
      rw [htgt]
      have : needReplanB st tick d (tgt.x, tgt.y) = false := by
        rcases h : needReplanB st tick d (tgt.x, tgt.y) with _ | _
        · rfl
        · exact absurd (key.mp h) hcond
      simp only [this, Bool.false_eq_true, if_false]
  · intro planOneA cruise diagonal tick st d tgt htgt
    have key : needReplanA st tick d (tgt.x, tgt.y) = true ↔
        (st.lastPlannedTick d.id = none ∨ st.lastTargetKey d.id ≠ some (tgt.x, tgt.y) ∨
          (∃ lt, st.lastPlannedTick d.id = some lt ∧ astarReplanEvery ≤ tick - lt) ∨
          d.path = []) := by
      unfold needReplanA
      match hlt : st.lastPlannedTick d.id with
      | none => simp [hlt]
      | some lt => simp [hlt, List.isEmpty_iff, or_assoc]
    constructor
    · intro hcond
      unfold planDroneA
      rw [htgt]
      simp only [key.mpr hcond, if_true]
    · intro hcond
      unfold planDroneA
      rw [htgt]
      have : needReplanA st tick d (tgt.x, tgt.y) = false := by
        rcases h : needReplanA st tick d (tgt.x, tgt.y) with _ | _
        · rfl
        · exact absurd (key.mp h) hcond
      simp only [this, Bool.false_eq_true, if_false]

/-- Witness for the replan characterization: the cadence scenario of the
claim.  A first plan at `tick = 0` replans (never planned before); at
`tick = 10` with unchanged goal and non-empty path nothing happens; at
`tick = 20` the cadence fires and the recorded tick becomes 20. -/
theorem replan_exactly_when_condition_fires_witness :
    (planDroneB (fun _ _ _ t _ _ => [t]) ⟨(100, 100, 50), []⟩ 60 (fun _ => none) 0
        BanditMHAStar.initState
        ⟨"a", ⟨5, 5, 0⟩, ⟨0, 0, 0⟩, [], some ⟨95, 95, 0⟩⟩ =
      (⟨"a", ⟨5, 5, 0⟩, ⟨0, 0, 0⟩, [⟨95, 95, 0⟩], some ⟨95, 95, 0⟩⟩,
       { grid := none
         lastTick := updD BanditMHAStar.initState.lastTick "a" 0
         lastGoal := updD BanditMHAStar.initState.lastGoal "a" (95, 95) })) ∧
    (planDroneB (fun _ _ _ t _ _ => [t]) ⟨(100, 100, 50), []⟩ 60 (fun _ => none) 10
        { grid := none
          lastTick := updD BanditMHAStar.initState.lastTick "a" 0
          lastGoal := updD BanditMHAStar.initState.lastGoal "a" (95, 95) }
        ⟨"a", ⟨5, 5, 0⟩, ⟨0, 0, 0⟩, [⟨95, 95, 0⟩], some ⟨95, 95, 0⟩⟩ =
      (⟨"a", ⟨5, 5, 0⟩, ⟨0, 0, 0⟩, [⟨95, 95, 0⟩], some ⟨95, 95, 0⟩⟩,
       { grid := none
         lastTick := updD BanditMHAStar.initState.lastTick "a" 0
         lastGoal := updD BanditMHAStar.initState.lastGoal "a" (95, 95) })) ∧
    ((planDroneB (fun _ _ _ t _ _ => [t]) ⟨(100, 100, 50), []⟩ 60 (fun _ => none) 20
        { grid := none
          lastTick := updD BanditMHAStar.initState.lastTick "a" 0
          lastGoal := updD BanditMHAStar.initState.lastGoal "a" (95, 95) }
        ⟨"a", ⟨5, 5, 0⟩, ⟨0, 0, 0⟩, [⟨95, 95, 0⟩], some ⟨95, 95, 0⟩⟩).2.lastTick "a" =
      some 20) := by
  refine ⟨?_, ?_, ?_⟩
  · exact (replan_exactly_when_condition_fires.1 _ _ _ _ 0 _ _ _ rfl).1
      (Or.inl rfl)
  · refine (replan_exactly_when_condition_fires.1 _ _ _ _ 10 _ _ _ rfl).2 ?_
    rintro (h | h | ⟨lt, hlt, hle⟩ | h)
    · simp [updD, BanditMHAStar.initState] at h
    · exact h (by simp [updD, BanditMHAStar.initState])
    · rw [show lt = 0 from (by simpa [updD, BanditMHAStar.initState] using hlt : (0 : ℤ) = lt).symm] at hle
      revert hle
      decide
    · simp at h
  · rw [(replan_exactly_when_condition_fires.1 _ _ _ _ 20 _ _ _ rfl).1
      (Or.inr (Or.inr (Or.inl ⟨0, by simp [updD, BanditMHAStar.initState], by decide⟩)))]
    simp [updD]

/-- C2 (counterexample): with `v_max` bound to the non-numeric string
`"fast"` and a drone that needs planning, `plan_paths` does not substitute
the default 20.0 — the `float()` conversion in `_plan_one` raises and the
whole call aborts with the error. -/
theorem bad_param_aborts_plan_paths :
    planPathsBE (fun _ _ _ _ _ _ => []) ⟨(100, 100, 50), []⟩
      (fun k => if k = "v_max" then some (.pstr "fast") else none)
      BanditMHAStar.initState
      [⟨"a", ⟨5, 5, 0⟩, ⟨0, 0, 0⟩, [], some ⟨95, 95, 0⟩⟩] =
    Except.error "fast" := by
  rfl

/-- C2 (amended): the documented defaults are substituted exactly when a
parameter key is absent from the params map; a recognized parameter bound
to a non-numeric string makes the `float()` conversion of `_plan_one`
raise, aborting the call, and an `anchor_period` of 0 is not replaced by
the default 6 but raises `ZeroDivisionError` at the first forced-anchor
test of the search loop. -/
theorem param_defaults_only_on_absent_keys :
    parseOuterParams (fun _ => none) = .ok ⟨20, 6, 60, 0⟩ ∧
    parsePlanOneParams (fun _ => none) =
      .ok ⟨20, 4, 8, 2, false, 23 / 20, 1, 11 / 10, 1 / 5, 4 / 5, 6, 2500, 21 / 20⟩ ∧
    (∀ (p : Params) (s : String), p "v_max" = some (.pstr s) → parseFloatQ s = none →
      ∀ (sf : SearchFnB) (world : World) (grid : Option GridCacheBMHA)
        (pos tgt : Vec3) (cruise : ℚ),
        planOneE sf world grid pos tgt cruise p = .error s) ∧
    (∀ expansions : ℤ, forcedAnchorAt expansions 0 = .error "integer modulo by zero") := by
  refine ⟨rfl, rfl, ?_, ?_⟩
  · intro p s hp hs sf world grid pos tgt cruise
    unfold planOneE parsePlanOneParams
    rw [show getParam p "v_max" (.num 20) = .pstr s by simp [getParam, hp]]
    simp only [pyFloat, hs]
    rfl
  · intro expansions
    rfl

/-- Witness for the amended parameter claim, at the concrete bad value of
the counterexample. -/
theorem param_defaults_only_on_absent_keys_witness :
    planOneE (fun _ _ _ _ _ _ => []) ⟨(100, 100, 50), []⟩ none
      ⟨5, 5, 0⟩ ⟨95, 95, 0⟩ 60
      (fun k => if k = "v_max" then some (.pstr "fast") else none) =
      .error "fast" :=
  param_defaults_only_on_absent_keys.2.2.1
    (fun k => if k = "v_max" then some (.pstr "fast") else none) "fast"
    rfl rfl (fun _ _ _ _ _ _ => []) ⟨(100, 100, 50), []⟩ none
    ⟨5, 5, 0⟩ ⟨95, 95, 0⟩ 60

/-- C1 (counterexample): a session that plans on a one-obstacle world
(building the cache, whose single cell is blocked), replaces the world by
an empty one via `set_world`, and plans again with an unchanged cell size.
The second plan reuses the cache built from the old world — whose blocked
mask `[true]` differs from the mask `[false]` a rebuild from the new world
would produce — so the blocked mask consulted by that plan does not derive
from the world of that `plan_paths` call. -/
theorem set_world_does_not_invalidate_grid :
    sessionPlan (fun _ _ _ _ _ _ => []) (fun _ => none) []
        ⟨⟨(1, 1, 50), [⟨"b", ⟨1/2, 1/2, 0⟩, ⟨1, 1, 1⟩⟩]⟩, 0, BanditMHAStar.initState⟩ =
      .ok ([], ⟨⟨(1, 1, 50), [⟨"b", ⟨1/2, 1/2, 0⟩, ⟨1, 1, 1⟩⟩]⟩, 0,
        { grid := some (GridCacheBMHA.build
            ⟨(1, 1, 50), [⟨"b", ⟨1/2, 1/2, 0⟩, ⟨1, 1, 1⟩⟩]⟩ 20 6)
          lastTick := fun _ => none
          lastGoal := fun _ => none }⟩) ∧
    sessionPlan (fun _ _ _ _ _ _ => []) (fun _ => none) []
        (sessionSetWorld ⟨(1, 1, 50), []⟩
          ⟨⟨(1, 1, 50), [⟨"b", ⟨1/2, 1/2, 0⟩, ⟨1, 1, 1⟩⟩]⟩, 0,
            { grid := some (GridCacheBMHA.build
                ⟨(1, 1, 50), [⟨"b", ⟨1/2, 1/2, 0⟩, ⟨1, 1, 1⟩⟩]⟩ 20 6)
              lastTick := fun _ => none
              lastGoal := fun _ => none }⟩) =
      .ok ([], ⟨⟨(1, 1, 50), []⟩, 0,
        { grid := some (GridCacheBMHA.build
            ⟨(1, 1, 50), [⟨"b", ⟨1/2, 1/2, 0⟩, ⟨1, 1, 1⟩⟩]⟩ 20 6)
          lastTick := fun _ => none
          lastGoal := fun _ => none }⟩) ∧
    (GridCacheBMHA.build ⟨(1, 1, 50), [⟨"b", ⟨1/2, 1/2, 0⟩, ⟨1, 1, 1⟩⟩]⟩ 20 6).blocked =
      [true] ∧
    (GridCacheBMHA.build ⟨(1, 1, 50), []⟩ 20 6).blocked = [false] := by
  have h2 : ensureGridB ⟨(1, 1, 50), [⟨"b", ⟨1/2, 1/2, 0⟩, ⟨1, 1, 1⟩⟩]⟩ 20 6 none =
      some (GridCacheBMHA.build ⟨(1, 1, 50), [⟨"b", ⟨1/2, 1/2, 0⟩, ⟨1, 1, 1⟩⟩]⟩ 20 6) := by
    simp only [ensureGridB]
    norm_num [max_def]
  have h1 : parseOuterParams (updD (fun _ => none) "tick" (.num ((0 : ℤ) : ℚ))) =
      .ok ⟨20, 6, 60, 0⟩ := rfl
  refine ⟨?_, ?_, ?_, ?_⟩
  · simp only [sessionPlan, planPathsBE, planLoopBE, bind, Except.bind,
      BanditMHAStar.initState, h1, h2]
    rfl
  · rfl
  · show blockedListOf _ 20 6 = [true]
    unfold blockedListOf
    have hw : wCellsOf ⟨(1, 1, 50), [⟨"b", ⟨1/2, 1/2, 0⟩, ⟨1, 1, 1⟩⟩]⟩ 20 = 1 := by
      unfold wCellsOf
      norm_num [max_def]
    have hh : hCellsOf ⟨(1, 1, 50), [⟨"b", ⟨1/2, 1/2, 0⟩, ⟨1, 1, 1⟩⟩]⟩ 20 = 1 := by
      unfold hCellsOf
      norm_num [max_def]
    rw [hw, hh]
    show [blockedIdx _ 20 6 0] = [true]
    unfold blockedIdx
    rw [hw, hh]
    simp only [List.any_cons, List.any_nil, Bool.or_false]
    unfold coversCell rectOverlapsCell
    norm_num [max_def, min_def]
  · show blockedListOf _ 20 6 = [false]
    unfold blockedListOf
    have hw : wCellsOf ⟨(1, 1, 50), []⟩ 20 = 1 := by
      unfold wCellsOf
      norm_num [max_def]
    have hh : hCellsOf ⟨(1, 1, 50), []⟩ 20 = 1 := by
      unfold hCellsOf
      norm_num [max_def]
    rw [hw, hh]
    rfl

/-- C1 (amended): the bandit planner rebuilds its `GridCache` exactly when
none is cached or the cached cell size differs from the requested
`grid_cell_m` (coarsening oversized worlds); when a rebuild happens the new
cache derives from the current world argument, but replacing the world via
`set_world` does not touch the planner state, so a subsequent plan with an
unchanged cell size reuses the cache built from the previous world. -/
theorem grid_rebuild_condition_exact :
    (∀ (world : World) (cell inflate : ℚ) (gc : GridCacheBMHA),
      gc.cell = cell → ensureGridB world cell inflate (some gc) = some gc) ∧
    (∀ (world : World) (cell inflate : ℚ) (g : Option GridCacheBMHA),
      (match g with | none => True | some gc => gc.cell ≠ cell) →
      ensureGridB world cell inflate g =
        (if (max 1 ⌊world.size.1 / max cell 1⌋).toNat *
              (max 1 ⌊world.size.2.1 / max cell 1⌋).toNat > 300000 ∨
            world.obstacles.length > 5000 then
          some (GridCacheBMHA.build world (max cell 24) inflate)
        else some (GridCacheBMHA.build world cell inflate))) ∧
    (∀ (w : World) (s : SessionState), (sessionSetWorld w s).bandit = s.bandit) := by
  refine ⟨?_, ?_, ?_⟩
  · intro world cell inflate gc hgc
    simp [ensureGridB, hgc]
  · intro world cell inflate g hg
    match g with
    | none => simp [ensureGridB]
    | some gc => simp [ensureGridB, hg]
  · intro w s
    rfl

/-- Witness for the rebuild-condition theorem: a cached grid with matching
cell size is reused, and `set_world` leaves the planner state alone. -/
theorem grid_rebuild_condition_exact_witness :
    ensureGridB ⟨(1, 1, 50), []⟩ 20 6
        (some (GridCacheBMHA.build ⟨(1, 1, 50), []⟩ 20 6)) =
      some (GridCacheBMHA.build ⟨(1, 1, 50), []⟩ 20 6) ∧
    (sessionSetWorld ⟨(1, 1, 50), []⟩
        ⟨⟨(2, 1, 50), []⟩, 5, BanditMHAStar.initState⟩).bandit =
      BanditMHAStar.initState :=
  ⟨grid_rebuild_condition_exact.1 _ 20 6 _ rfl,
   grid_rebuild_condition_exact.2.2 _ _⟩

end UAV

namespace UAV

/-! ### Ring-scan geometry lemmas (shared helpers) -/

/-- Membership in a Python-style integer range. -/
theorem mem_rangeInt {lo hi a : ℤ} : a ∈ rangeInt lo hi ↔ lo ≤ a ∧ a < hi := by
  unfold rangeInt
  simp only [List.mem_map, List.mem_range]
  constructor
  · rintro ⟨k, hk, rfl⟩
    omega
  · intro h
    exact ⟨(a - lo).toNat, by omega, by omega⟩

/-- The radius-`r` ring contains exactly the cells at Chebyshev distance
`r` from the centre. -/
theorem mem_ringCells {g0 c : Coord} {r : ℤ} (hr : 1 ≤ r) :
    c ∈ ringCells g0 r ↔ (chebDist c g0 : ℤ) = r := by
  obtain ⟨cx, cy⟩ := c
  obtain ⟨gx, gy⟩ := g0
  unfold ringCells chebDist
  simp only [List.mem_append, List.mem_flatMap, mem_rangeInt, List.mem_cons,
    List.not_mem_nil, or_false, Prod.mk.injEq]
  constructor
  · rintro (⟨dx, ⟨h1, h2⟩, (⟨rfl, rfl⟩ | ⟨rfl, rfl⟩)⟩ |
      ⟨dy, ⟨h1, h2⟩, (⟨rfl, rfl⟩ | ⟨rfl, rfl⟩)⟩) <;> omega
  · intro h
    simp only at h
    by_cases hy : (cy - gy).natAbs = r.toNat
    · rcases (by omega : cy = gy + -r ∨ cy = gy + r) with h2 | h2
      · exact Or.inl ⟨cx - gx, ⟨by omega, by omega⟩, Or.inl ⟨by omega, h2⟩⟩
      · exact Or.inl ⟨cx - gx, ⟨by omega, by omega⟩, Or.inr ⟨by omega, h2⟩⟩
    · rcases (by omega : cx = gx + -r ∨ cx = gx + r) with h2 | h2
      · exact Or.inr ⟨cy - gy, ⟨by omega, by omega⟩, Or.inl ⟨h2, by omega⟩⟩
      · exact Or.inr ⟨cy - gy, ⟨by omega, by omega⟩, Or.inr ⟨h2, by omega⟩⟩

/-- The scan sequence of radii `1..rMax` contains exactly the cells at
Chebyshev distance between 1 and `rMax`. -/
theorem mem_spiralCells {g0 c : Coord} {rMax : ℕ} :
    c ∈ spiralCells g0 rMax ↔ 1 ≤ chebDist c g0 ∧ chebDist c g0 ≤ rMax := by
  unfold spiralCells
  simp only [List.mem_flatMap, List.mem_map, List.mem_range]
  constructor
  · rintro ⟨r, ⟨k, hk, rfl⟩, hc⟩
    have := (mem_ringCells (by omega : (1 : ℤ) ≤ (k : ℤ) + 1)).mp hc
    omega
  · intro h
    refine ⟨((chebDist c g0 : ℕ) : ℤ), ⟨chebDist c g0 - 1, by omega, by omega⟩, ?_⟩
    exact (mem_ringCells (by omega)).mpr (by omega)

/-- C7 (amended): the nearest-free search returns a non-blocked input
unchanged; when it scans, it scans exactly the cells at Chebyshev distance
1 to `rMax` from the input (in ring order), so it returns a free cell
whenever one exists within `rMax` rings and returns the input unchanged
when all cells within `rMax` rings are blocked.  The bandit planner scans
`rMax = 49` rings (`range(1, 50)`), plain grid A* `rMax = 19` rings
(`range(1, 20)`) — not 50. -/
theorem nearest_free_rings_exact :
    (∀ (isBlk : Coord → Bool) (g0 : Coord) (rMax : ℕ),
      (isBlk g0 = false → nearestFreeScan isBlk g0 rMax = g0) ∧
      ((∃ c, 1 ≤ chebDist c g0 ∧ chebDist c g0 ≤ rMax ∧ isBlk c = false) →
        isBlk (nearestFreeScan isBlk g0 rMax) = false ∧
          chebDist (nearestFreeScan isBlk g0 rMax) g0 ≤ rMax) ∧
      ((∀ c, 1 ≤ chebDist c g0 → chebDist c g0 ≤ rMax → isBlk c = true) →
        nearestFreeScan isBlk g0 rMax = g0)) ∧
    (∀ (g : GridCacheBMHA) (g0 : Coord),
      BanditMHAStar.nearestFree g g0 = nearestFreeScan g.isBlocked g0 49) ∧
    (∀ (g : GridCacheA) (g0 : Coord),
      AStarGrid.nearestFree g g0 = nearestFreeScan g.isBlocked g0 19) := by
  refine ⟨?_, fun _ _ => rfl, fun _ _ => rfl⟩
  intro isBlk g0 rMax
  refine ⟨?_, ?_, ?_⟩
  · intro h
    simp [nearestFreeScan, h]
  · intro ⟨c, hc1, hc2, hcf⟩
    by_cases hg : isBlk g0 = false
    · rw [nearestFreeScan, hg]
      refine ⟨by simpa using hg, ?_⟩
      simp [chebDist]
    · have hg2 : isBlk g0 = true := by
        revert hg
        cases isBlk g0 <;> simp
      rw [nearestFreeScan, hg2]
      simp only [Bool.not_true, Bool.false_eq_true, if_false]
      match hfind : (spiralCells g0 rMax).find? (fun c => !(isBlk c)) with
      | some c2 =>
        have hmem := List.mem_of_find?_eq_some hfind
        have hp := List.find?_some hfind
        exact ⟨by simpa using hp, (mem_spiralCells.mp hmem).2⟩
      | none =>
        exfalso
        have hall := List.find?_eq_none.mp hfind c
          (mem_spiralCells.mpr ⟨hc1, hc2⟩)
        simp [hcf] at hall
  · intro hall
    by_cases hg : isBlk g0 = false
    · simp [nearestFreeScan, hg]
    · have hg2 : isBlk g0 = true := by
        revert hg
        cases isBlk g0 <;> simp
      rw [nearestFreeScan, hg2]
      simp only [Bool.not_true, Bool.false_eq_true, if_false]
      rw [List.find?_eq_none.mpr ?_]
      intro c hc
      have hb := mem_spiralCells.mp hc
      simp [hall c hb.1 hb.2]

/-- Witness for the nearest-free theorem: with only cell `(1,0)` free and a
blocked input `(0,0)`, the scan finds a free cell within the rings. -/
theorem nearest_free_rings_exact_witness :
    (fun c : Coord => decide (c ≠ (1, 0)))
        (nearestFreeScan (fun c : Coord => decide (c ≠ (1, 0))) (0, 0) 49) = false ∧
      chebDist (nearestFreeScan (fun c : Coord => decide (c ≠ (1, 0))) (0, 0) 49)
        (0, 0) ≤ 49 :=
  (nearest_free_rings_exact.1 (fun c : Coord => decide (c ≠ (1, 0))) (0, 0) 49).2.1
    ⟨(1, 0), by decide, by decide, by decide⟩

/-- C7 (counterexample): on a 101×1 grid whose only free cell `(0,0)` lies
at Chebyshev distance 50 from the blocked query cell `(50,0)`, the bandit
planner's `_nearest_free` returns the input unchanged: its rings stop at
radius 49 (`range(1, 50)`), so the free cell within 50 rings promised by
the claim is never found. -/
theorem nearest_free_ring_50_missed :
    BanditMHAStar.nearestFree ⟨1, 101, 1, false :: List.replicate 100 true, []⟩
        (50, 0) = (50, 0) ∧
    GridCacheBMHA.isBlocked ⟨1, 101, 1, false :: List.replicate 100 true, []⟩
        (50, 0) = true ∧
    GridCacheBMHA.isBlocked ⟨1, 101, 1, false :: List.replicate 100 true, []⟩
        (0, 0) = false ∧
    chebDist (0, 0) (50, 0) = 50 := by
  have hblk : GridCacheBMHA.isBlocked ⟨1, 101, 1, false :: List.replicate 100 true, []⟩
      (50, 0) = true := by decide
  refine ⟨?_, hblk, by decide, by decide⟩
  have hall : ∀ c ∈ spiralCells ((50 : ℤ), (0 : ℤ)) 49,
      ¬((fun c => !(GridCacheBMHA.isBlocked
        ⟨1, 101, 1, false :: List.replicate 100 true, []⟩ c)) c = true) := by
    intro c hc
    have hb := mem_spiralCells.mp hc
    obtain ⟨cx, cy⟩ := c
    suffices hs : GridCacheBMHA.isBlocked
        ⟨1, 101, 1, false :: List.replicate 100 true, []⟩ (cx, cy) = true by
      intro hcontra
      simp only at hcontra
      rw [hs] at hcontra
      simp at hcontra
    have hb2 : 1 ≤ max (cx - 50).natAbs (cy - 0).natAbs ∧
        max (cx - 50).natAbs (cy - 0).natAbs ≤ 49 := by
      unfold chebDist at hb
      exact hb
    unfold GridCacheBMHA.isBlocked GridCacheBMHA.idx
    by_cases hy : cy = 0
    · subst hy
      have hx1 : (1 : ℤ) ≤ cx := by omega
      have hx2 : cx ≤ 99 := by omega
      have hidx : ((0 : ℤ) * ((101 : ℕ) : ℤ) + cx).toNat = (cx.toNat - 1) + 1 := by
        omega
      have hgd : (false :: List.replicate 100 true).getD
          (((0 : ℤ) * ((101 : ℕ) : ℤ) + cx).toNat) false = true := by
        rw [hidx]
        show (List.replicate 100 true).getD (cx.toNat - 1) false = true
        rw [List.getD_eq_getElem _ _ (by simp; omega), List.getElem_replicate]
      rw [hgd]
      simp
    · rcases (by omega : cy < 0 ∨ (1 : ℤ) ≤ cy) with hy2 | hy2
      · have h0 : decide (cy < 0) = true := by simpa using hy2
        rw [h0]
        simp
      · have h0 : decide (((1 : ℕ) : ℤ) ≤ cy) = true := by
          simp only [decide_eq_true_eq]
          simpa using hy2
        rw [h0]
        simp
  rw [BanditMHAStar.nearestFree, nearestFreeScan, hblk]
  simp only [Bool.not_true, Bool.false_eq_true, if_false]
  rw [List.find?_eq_none.mpr hall]

end UAV

namespace UAV

/-! ### Bandit scheduler lemmas -/

/-- Membership in the `avail` list is queue non-emptiness. -/
theorem mem_availQueues {ne : Fin 4 → Bool} {i : Fin 4} :
    i ∈ availQueues ne ↔ ne i = true := by
  fin_cases i <;> cases h0 : ne 0 <;> cases h1 : ne 1 <;> cases h2 : ne 2 <;>
    cases h3 : ne 3 <;> simp [availQueues, h0, h1, h2, h3]

/-- The `avail` list is strictly increasing. -/
theorem availQueues_sorted (ne : Fin 4 → Bool) :
    List.Sorted (· < ·) (availQueues ne) := by
  unfold availQueues
  cases h0 : ne 0 <;> cases h1 : ne 1 <;> cases h2 : ne 2 <;> cases h3 : ne 3 <;> decide

/-- `find?` on a strictly sorted list returns the least element satisfying
the predicate. -/
theorem find?_min_of_sorted {p : Fin 4 → Bool} :
    ∀ {l : List (Fin 4)}, List.Sorted (· < ·) l → ∀ {a : Fin 4},
      l.find? p = some a → ∀ b ∈ l, p b = true → a ≤ b := by
  intro l
  induction l with
  | nil => intro _ a h; simp [List.find?] at h
  | cons hd t ih =>
    intro hs a hf b hb hp
    rw [List.find?] at hf
    rcases hhd : p hd with _ | _
    · rw [hhd] at hf
      rcases List.mem_cons.mp hb with rfl | hbt
      · rw [hp] at hhd; cases hhd
      · exact ih (List.sorted_cons.mp hs).2 hf b hbt hp
    · rw [hhd] at hf
      injection hf with hf
      subst hf
      rcases List.mem_cons.mp hb with rfl | hbt
      · exact le_refl _
      · exact le_of_lt ((List.sorted_cons.mp hs).1 b hbt)

/-- The arg-max loop of `_choose_queue_ucb`, started at the running best
`(b, score b)`: either nothing in the list beats `b` and `b` is returned,
or the result splits the list into a strictly-smaller prefix, the result,
and a no-larger suffix (so ties keep the earliest index). -/
theorem pickBest_spec {α : Type} [LinearOrder α] (score : Fin 4 → α) :
    ∀ (l : List (Fin 4)) (b : Fin 4),
      (pickBest score l b (score b) = b ∧ ∀ i ∈ l, score i ≤ score b) ∨
      (∃ l₁ l₂, l = l₁ ++ pickBest score l b (score b) :: l₂ ∧
        score b < score (pickBest score l b (score b)) ∧
        (∀ i ∈ l₁, score i < score (pickBest score l b (score b))) ∧
        (∀ i ∈ l₂, score i ≤ score (pickBest score l b (score b)))) := by
  intro l
  induction l with
  | nil => intro b; exact Or.inl ⟨rfl, by simp⟩
  | cons j t ih =>
    intro b
    by_cases h : score b < score j
    · have hstep : pickBest score (j :: t) b (score b) = pickBest score t j (score j) := by
        simp [pickBest, h]
      rw [hstep]
      rcases ih j with ⟨heq, hall⟩ | ⟨l₁, l₂, hsplit, hlt, hl₁, hl₂⟩
      · rw [heq]
        exact Or.inr ⟨[], t, by simp, h, by simp, hall⟩
      · refine Or.inr ⟨j :: l₁, l₂, by rw [List.cons_append, ← hsplit], h.trans hlt, ?_, hl₂⟩
        intro i hi
        rcases List.mem_cons.mp hi with rfl | hil
        · exact hlt
        · exact hl₁ i hil
    · have hstep : pickBest score (j :: t) b (score b) = pickBest score t b (score b) := by
        simp [pickBest, h]
      rw [hstep]
      rcases ih b with ⟨heq, hall⟩ | ⟨l₁, l₂, hsplit, hlt, hl₁, hl₂⟩
      · refine Or.inl ⟨heq, ?_⟩
        intro i hi
        rcases List.mem_cons.mp hi with rfl | hil
        · exact le_of_not_lt h
        · exact hall i hil
      · refine Or.inr ⟨j :: l₁, l₂, by rw [List.cons_append, ← hsplit], hlt, ?_, hl₂⟩
        intro i hi
        rcases List.mem_cons.mp hi with rfl | hil
        · exact lt_of_le_of_lt (le_of_not_lt h) hlt
        · exact hl₁ i hil

/-- The UCB1 score is non-negative when `c` and the rewards are. -/
theorem ucbScore_nonneg {c : ℝ} {rs : Fin 4 → ℝ} (pulls : Fin 4 → ℕ)
    (total : ℕ) (hc : 0 ≤ c) (hrs : ∀ i, 0 ≤ rs i) (i : Fin 4) :
    0 ≤ ucbScore c rs pulls total i := by
  unfold ucbScore
  have h1 : 0 ≤ rs i / ((max 1 (pulls i) : ℕ) : ℝ) :=
    div_nonneg (hrs i) (Nat.cast_nonneg _)
  have h2 : 0 ≤ c * Real.sqrt (Real.log ((max 1 total : ℕ) : ℝ) / ((pulls i : ℕ) : ℝ)) :=
    mul_nonneg hc (Real.sqrt_nonneg _)
  linarith

/-- C5: the queue chosen at each expansion: queue 0 when the forced-anchor
cadence fires with a non-empty anchor queue; queue 0 when every queue is
empty; otherwise the lowest-indexed non-empty queue with zero pulls if one
exists; otherwise a non-empty queue maximizing the UCB1 score, ties going
to the lowest index. -/
theorem choose_queue_ucb_cases :
    ∀ (forced : Bool) (ne : Fin 4 → Bool) (pulls : Fin 4 → ℕ)
      (c : ℝ) (rs : Fin 4 → ℝ) (total : ℕ),
      0 ≤ c → (∀ i, 0 ≤ rs i) →
      ((forced = true ∧ ne 0 = true) →
        chooseQueueUcb forced ne pulls (ucbScore c rs pulls total) = 0) ∧
      ((∀ i, ne i = false) →
        chooseQueueUcb forced ne pulls (ucbScore c rs pulls total) = 0) ∧
      (¬(forced = true ∧ ne 0 = true) →
        ∀ j, ne j = true → pulls j = 0 →
          ne (chooseQueueUcb forced ne pulls (ucbScore c rs pulls total)) = true ∧
          pulls (chooseQueueUcb forced ne pulls (ucbScore c rs pulls total)) = 0 ∧
          chooseQueueUcb forced ne pulls (ucbScore c rs pulls total) ≤ j) ∧
      (¬(forced = true ∧ ne 0 = true) →
        (∃ j, ne j = true) → (∀ j, ne j = true → pulls j ≠ 0) →
          ne (chooseQueueUcb forced ne pulls (ucbScore c rs pulls total)) = true ∧
          (∀ j, ne j = true →
            ucbScore c rs pulls total j ≤
              ucbScore c rs pulls total
                (chooseQueueUcb forced ne pulls (ucbScore c rs pulls total))) ∧
          (∀ j, ne j = true →
            j < chooseQueueUcb forced ne pulls (ucbScore c rs pulls total) →
            ucbScore c rs pulls total j <
              ucbScore c rs pulls total
                (chooseQueueUcb forced ne pulls (ucbScore c rs pulls total)))) := by
  intro forced ne pulls c rs total hc hrs
  refine ⟨?_, ?_, ?_, ?_⟩
  · intro ⟨hf, h0⟩
    unfold chooseQueueUcb
    rw [hf, h0]
    rfl
  · intro hall
    unfold chooseQueueUcb
    rw [hall 0, Bool.and_false]
    have havail : availQueues ne = [] := by
      unfold availQueues
      rw [hall 0, hall 1, hall 2, hall 3]
      rfl
    rw [havail]
    rfl
  · intro hnf j hj hp
    have hff : (forced && ne 0) = false := by
      cases hf : forced
      · rfl
      · cases h0 : ne 0
        · simp
        · exact absurd ⟨hf, h0⟩ hnf
    have hjmem : j ∈ availQueues ne := mem_availQueues.mpr hj
    match havail : availQueues ne with
    | [] => rw [havail] at hjmem; cases hjmem
    | a :: rest =>
      rw [havail] at hjmem
      have hpj : (pulls j == 0) = true := by simp [hp]
      match hfind : (a :: rest).find? (fun i => pulls i == 0) with
      | none =>
        exact absurd hpj (by simpa using List.find?_eq_none.mp hfind j hjmem)
      | some r =>
        have hchoose : chooseQueueUcb forced ne pulls (ucbScore c rs pulls total) = r := by
          unfold chooseQueueUcb
          rw [hff]
          simp only [Bool.false_eq_true, if_false]
          rw [havail]
          simp only [hfind]
        rw [hchoose]
        have hrmem : r ∈ a :: rest := List.mem_of_find?_eq_some hfind
        have hrp : (pulls r == 0) = true := by
          have := List.find?_some hfind
          simpa using this
        refine ⟨?_, by simpa using hrp, ?_⟩
        · rw [← havail] at hrmem
          exact mem_availQueues.mp hrmem
        · have hsorted := availQueues_sorted ne
          rw [havail] at hsorted
          exact find?_min_of_sorted hsorted hfind j hjmem (by simpa using hpj)
  · intro hnf hex hpos
    have hff : (forced && ne 0) = false := by
      cases hf : forced
      · rfl
      · cases h0 : ne 0
        · simp
        · exact absurd ⟨hf, h0⟩ hnf
    obtain ⟨j0, hj0⟩ := hex
    have hj0mem : j0 ∈ availQueues ne := mem_availQueues.mpr hj0
    match havail : availQueues ne with
    | [] => rw [havail] at hj0mem; cases hj0mem
    | a :: rest =>
      have hfind : (a :: rest).find? (fun i => pulls i == 0) = none := by
        apply List.find?_eq_none.mpr
        intro x hx
        have hnex : ne x = true := mem_availQueues.mp (havail ▸ hx)
        simp [hpos x hnex]
      have hamem : a ∈ availQueues ne := by
        rw [havail]
        exact List.mem_cons_self a rest
      have hnea : ne a = true := mem_availQueues.mp hamem
      have hnonneg := ucbScore_nonneg pulls total hc hrs
      have hinit : (-(10 ^ 18 : ℝ)) < ucbScore c rs pulls total a :=
        lt_of_lt_of_le (by norm_num) (hnonneg a)
      have hchoose : chooseQueueUcb forced ne pulls (ucbScore c rs pulls total) =
          pickBest (ucbScore c rs pulls total) rest a (ucbScore c rs pulls total a) := by
        unfold chooseQueueUcb
        rw [hff]
        simp only [Bool.false_eq_true, if_false]
        rw [havail]
        simp only [hfind]
        simp [pickBest, hinit]
      rw [hchoose]
      have hsorted := availQueues_sorted ne
      rw [havail] at hsorted
      have hsc := List.sorted_cons.mp hsorted
      rcases pickBest_spec (ucbScore c rs pulls total) rest a with
        ⟨heq, hall⟩ | ⟨l₁, l₂, hsplit, hlt, hl₁, hl₂⟩
      · rw [heq]
        refine ⟨hnea, ?_, ?_⟩
        · intro j hj
          have hjm : j ∈ a :: rest := havail ▸ mem_availQueues.mpr hj
          rcases List.mem_cons.mp hjm with rfl | hjr
          · exact le_refl _
          · exact hall j hjr
        · intro j hj hlt2
          have hjm : j ∈ a :: rest := havail ▸ mem_availQueues.mpr hj
          rcases List.mem_cons.mp hjm with rfl | hjr
          · exact absurd hlt2 (lt_irrefl _)
          · exact absurd hlt2 (not_lt_of_gt (hsc.1 j hjr))
      · set r := pickBest (ucbScore c rs pulls total) rest a (ucbScore c rs pulls total a)
          with hrdef
        have hrmem : r ∈ a :: rest := by
          rw [hsplit]
          exact List.mem_cons_of_mem a (by simp)
        have hner : ne r = true := mem_availQueues.mp (havail ▸ hrmem)
        have htail : List.Sorted (· < ·) (l₁ ++ r :: l₂) := hsplit ▸ hsc.2
        have hpair := List.pairwise_append.mp htail
        refine ⟨hner, ?_, ?_⟩
        · intro j hj
          have hjm : j ∈ a :: rest := havail ▸ mem_availQueues.mpr hj
          rcases List.mem_cons.mp hjm with rfl | hjr
          · exact le_of_lt hlt
          · rw [hsplit] at hjr
            rcases List.mem_append.mp hjr with hjl | hjc
            · exact le_of_lt (hl₁ j hjl)
            · rcases List.mem_cons.mp hjc with rfl | hjl2
              · exact le_refl _
              · exact hl₂ j hjl2
        · intro j hj hjlt
          have hjm : j ∈ a :: rest := havail ▸ mem_availQueues.mpr hj
          rcases List.mem_cons.mp hjm with rfl | hjr
          · exact hlt
          · rw [hsplit] at hjr
            rcases List.mem_append.mp hjr with hjl | hjc
            · exact hl₁ j hjl
            · rcases List.mem_cons.mp hjc with rfl | hjl2
              · exact absurd hjlt (lt_irrefl _)
              · exact absurd hjlt
                  (not_lt_of_gt ((List.sorted_cons.mp hpair.2.1).1 j hjl2))

/-- Witness for the queue-selection theorem: with all queues non-empty, all
pulls zero and zero rewards, the cold-start rule picks a zero-pull queue of
index at most 2. -/
theorem choose_queue_ucb_cases_witness :
    (fun _ : Fin 4 => true) (chooseQueueUcb false (fun _ : Fin 4 => true)
        (fun _ => 0) (ucbScore 0 (fun _ => 0) (fun _ => 0) 0)) = true ∧
      (fun _ : Fin 4 => (0 : ℕ)) (chooseQueueUcb false (fun _ : Fin 4 => true)
        (fun _ => 0) (ucbScore 0 (fun _ => 0) (fun _ => 0) 0)) = 0 ∧
      chooseQueueUcb false (fun _ : Fin 4 => true) (fun _ => 0)
        (ucbScore 0 (fun _ => 0) (fun _ => 0) 0) ≤ 2 :=
  (choose_queue_ucb_cases false (fun _ => true) (fun _ => 0) 0 (fun _ => 0) 0
    (le_refl 0) (fun _ => le_refl 0)).2.2.1
    (fun h => by cases h.1) 2 rfl rfl

end UAV

namespace UAV

/-! ### Anchor-heuristic admissibility lemmas -/

/-- Triangle inequality for the Euclidean plane norm, via `ℂ`. -/
theorem sqrt_sq_add_sq_triangle (a b c d : ℝ) :
    Real.sqrt ((a + c) ^ 2 + (b + d) ^ 2) ≤
      Real.sqrt (a ^ 2 + b ^ 2) + Real.sqrt (c ^ 2 + d ^ 2) := by
  have h1 : ∀ x y : ℝ, Real.sqrt (x ^ 2 + y ^ 2) = Complex.abs ⟨x, y⟩ := by
    intro x y
    rw [Complex.abs_apply, Complex.normSq_mk]
    ring_nf
  rw [h1, h1, h1]
  have h2 : (⟨a + c, b + d⟩ : ℂ) = ⟨a, b⟩ + ⟨c, d⟩ := by
    apply Complex.ext <;> simp
  rw [h2]
  exact Complex.abs.add_le _ _

/-- The clearance speed model never exceeds `v_max` when `v_min ≤ v_max`. -/
theorem speedFromClearance_le_vmax {clr vmin vmax kappa : ℝ} (hvv : vmin ≤ vmax) :
    speedFromClearance clr vmin vmax kappa ≤ vmax := by
  unfold speedFromClearance
  by_cases hk : kappa ≤ 0
  · rw [if_pos hk]
  · rw [if_neg hk]
    exact max_le hvv (min_le_left _ _)

/-- A single grid step has Euclidean length 1 (axial, where the source uses
edge length `cell`) or `√2` (diagonal, edge length `√2·cell`). -/
theorem step_length (u v : Coord) (hstep : isStep u v) :
    Real.sqrt (((v.1 - u.1 : ℤ) : ℝ) ^ 2 + ((v.2 - u.2 : ℤ) : ℝ) ^ 2) =
      (if u.1 = v.1 ∨ u.2 = v.2 then 1 else Real.sqrt 2) := by
  unfold isStep n8Offsets n4Offsets at hstep
  simp only [List.cons_append, List.nil_append, List.mem_cons,
    List.not_mem_nil, or_false, Prod.mk.injEq] at hstep
  rcases hstep with ⟨h1, h2⟩ | ⟨h1, h2⟩ | ⟨h1, h2⟩ | ⟨h1, h2⟩ |
    ⟨h1, h2⟩ | ⟨h1, h2⟩ | ⟨h1, h2⟩ | ⟨h1, h2⟩ <;>
    rw [h1, h2] <;>
    [rw [if_pos (Or.inr (by omega))]; rw [if_pos (Or.inr (by omega))];
     rw [if_pos (Or.inl (by omega))]; rw [if_pos (Or.inl (by omega))];
     rw [if_neg (by push_neg; exact ⟨by omega, by omega⟩)];
     rw [if_neg (by push_neg; exact ⟨by omega, by omega⟩)];
     rw [if_neg (by push_neg; exact ⟨by omega, by omega⟩)];
     rw [if_neg (by push_neg; exact ⟨by omega, by omega⟩)]] <;>
    norm_num

/-- One edge of a valid path costs at least its Euclidean length over the
clamped `v_max` (the anchor heuristic's speed). -/
theorem edgeTime_lower {cell vmin vmax kappa : ℝ} (clr : Coord → ℝ)
    {u v : Coord} (hstep : isStep u v) (hc : 0 ≤ cell) (hvv : vmin ≤ vmax) :
    Real.sqrt (((v.1 - u.1 : ℤ) : ℝ) ^ 2 + ((v.2 - u.2 : ℤ) : ℝ) ^ 2) * cell /
        max (1 / 1000000) vmax ≤
      edgeTime cell vmin vmax kappa clr u v := by
  unfold edgeTime
  have hMv : (0 : ℝ) < max (1 / 1000000)
      (min (speedFromClearance (clr u) vmin vmax kappa)
        (speedFromClearance (clr v) vmin vmax kappa)) :=
    lt_of_lt_of_le (by norm_num) (le_max_left _ _)
  have hle : max (1 / 1000000)
      (min (speedFromClearance (clr u) vmin vmax kappa)
        (speedFromClearance (clr v) vmin vmax kappa)) ≤ max (1 / 1000000) vmax := by
    apply max_le_max (le_refl _)
    exact le_trans (min_le_left _ _) (speedFromClearance_le_vmax hvv)
  have hlen : Real.sqrt (((v.1 - u.1 : ℤ) : ℝ) ^ 2 + ((v.2 - u.2 : ℤ) : ℝ) ^ 2) * cell =
      (if u.1 = v.1 ∨ u.2 = v.2 then cell else Real.sqrt 2 * cell) := by
    rw [step_length u v hstep]
    by_cases hcond : u.1 = v.1 ∨ u.2 = v.2
    · rw [if_pos hcond, if_pos hcond, one_mul]
    · rw [if_neg hcond, if_neg hcond]
  rw [hlen]
  apply div_le_div_of_nonneg_left ?_ hMv hle
  by_cases hcond : u.1 = v.1 ∨ u.2 = v.2
  · rw [if_pos hcond]
    exact hc
  · rw [if_neg hcond]
    exact mul_nonneg (Real.sqrt_nonneg _) hc

/-- C8: the anchor heuristic `_h_euclid_time` is a lower bound on the
clearance-modulated travel time of every valid grid path from `n` to `t`
(consecutive steps taken from the 4/8-neighbourhood of `_plan_one`), for
every clearance field and all `0 < v_min ≤ v_max`.  Since `true_time(n,T)`
is the minimum of `pathTime` over such paths, `h_anchor ≤ true_time`
follows — on obstacle-free worlds, and indeed on any world. -/
theorem h_anchor_admissible :
    ∀ (cell vmin vmax kappa : ℝ) (clr : Coord → ℝ),
      0 ≤ cell → 0 < vmin → vmin ≤ vmax →
      ∀ (path : List Coord) (n t : Coord),
        path.head? = some n → path.getLast? = some t → path.Chain' isStep →
        hEuclidTime cell vmax n t ≤ pathTime cell vmin vmax kappa clr path := by
  intro cell vmin vmax kappa clr hc hv0 hvv path
  induction path with
  | nil => intro n t hh; cases hh
  | cons u rest ih =>
    intro n t hh hl hch
    have hn : n = u := by
      rw [List.head?_cons] at hh
      injection hh with hh
      exact hh.symm
    subst hn
    have hM : (0 : ℝ) < max (1 / 1000000) vmax :=
      lt_of_lt_of_le (by norm_num) (le_max_left _ _)
    match rest with
    | [] =>
      have ht : t = n := by
        rw [List.getLast?_singleton] at hl
        injection hl with hl
        exact hl.symm
      subst ht
      unfold hEuclidTime pathTime
      simp
    | v :: rest2 =>
      have hstep : isStep n v ∧ List.Chain' isStep (v :: rest2) :=
        List.chain'_cons.mp hch
      have hlast : (v :: rest2).getLast? = some t := by
        rw [List.getLast?_cons_cons] at hl
        exact hl
      have hih := ih v t rfl hlast hstep.2
      have key : Real.sqrt (((n.1 - t.1 : ℤ) : ℝ) ^ 2 + ((n.2 - t.2 : ℤ) : ℝ) ^ 2) ≤
          Real.sqrt (((v.1 - n.1 : ℤ) : ℝ) ^ 2 + ((v.2 - n.2 : ℤ) : ℝ) ^ 2) +
            Real.sqrt (((v.1 - t.1 : ℤ) : ℝ) ^ 2 + ((v.2 - t.2 : ℤ) : ℝ) ^ 2) := by
        have h := sqrt_sq_add_sq_triangle ((n.1 - v.1 : ℤ) : ℝ) ((n.2 - v.2 : ℤ) : ℝ)
          ((v.1 - t.1 : ℤ) : ℝ) ((v.2 - t.2 : ℤ) : ℝ)
        have e1 : ((n.1 - v.1 : ℤ) : ℝ) + ((v.1 - t.1 : ℤ) : ℝ) = ((n.1 - t.1 : ℤ) : ℝ) := by
          push_cast
          ring
        have e2 : ((n.2 - v.2 : ℤ) : ℝ) + ((v.2 - t.2 : ℤ) : ℝ) = ((n.2 - t.2 : ℤ) : ℝ) := by
          push_cast
          ring
        have e3 : ((n.1 - v.1 : ℤ) : ℝ) ^ 2 = ((v.1 - n.1 : ℤ) : ℝ) ^ 2 := by
          push_cast
          ring
        have e4 : ((n.2 - v.2 : ℤ) : ℝ) ^ 2 = ((v.2 - n.2 : ℤ) : ℝ) ^ 2 := by
          push_cast
          ring
        rw [e1, e2, e3, e4] at h
        exact h
      have htri : hEuclidTime cell vmax n t ≤
          Real.sqrt (((v.1 - n.1 : ℤ) : ℝ) ^ 2 + ((v.2 - n.2 : ℤ) : ℝ) ^ 2) * cell /
            max (1 / 1000000) vmax + hEuclidTime cell vmax v t := by
        unfold hEuclidTime
        have k2 := mul_le_mul_of_nonneg_right key hc
        have k3 := (div_le_div_iff_of_pos_right hM).mpr k2
        refine le_trans k3 (le_of_eq ?_)
        ring
      refine le_trans htri ?_
      have hedge := @edgeTime_lower cell vmin vmax kappa clr n v hstep.1 hc hvv
      have hsum := add_le_add hedge hih
      refine le_trans hsum (le_of_eq ?_)
      rw [pathTime]

/-- Witness for the admissibility theorem: the one-step axial path from
`(0,0)` to `(1,0)` with unit cell and unit speeds. -/
theorem h_anchor_admissible_witness :
    hEuclidTime 1 1 ((0 : ℤ), (0 : ℤ)) ((1 : ℤ), (0 : ℤ)) ≤
      pathTime 1 1 1 0 (fun _ => 0) [((0 : ℤ), (0 : ℤ)), ((1 : ℤ), (0 : ℤ))] :=
  h_anchor_admissible 1 1 1 0 (fun _ => 0) (by norm_num) (by norm_num) (le_refl 1)
    [((0 : ℤ), (0 : ℤ)), ((1 : ℤ), (0 : ℤ))] ((0 : ℤ), (0 : ℤ)) ((1 : ℤ), (0 : ℤ))
    rfl rfl (by rw [List.chain'_pair]; decide)

end UAV

namespace UAV

/-! ### Chamfer distance transform: basic lemmas -/

theorem INFc_pos : 0 < INFc := by
  unfold INFc
  norm_num

/-- Generic fold-min bound: the fold is below each listed value. -/
theorem foldr_min_le {f : ℕ → ℕ} {a : ℕ} :
    ∀ {l : List ℕ} {j : ℕ}, j ∈ l →
      l.foldr (fun x acc => min (f x) acc) a ≤ f j := by
  intro l
  induction l with
  | nil => intro j hj; cases hj
  | cons x t ih =>
    intro j hj
    rcases List.mem_cons.mp hj with rfl | hjt
    · exact min_le_left _ _
    · exact le_trans (min_le_right _ _) (ih hjt)

/-- Generic fold-min bound: the fold is below the initial value. -/
theorem foldr_min_le_init {f : ℕ → ℕ} {a : ℕ} :
    ∀ {l : List ℕ}, l.foldr (fun x acc => min (f x) acc) a ≤ a := by
  intro l
  induction l with
  | nil => exact le_refl _
  | cons x t ih => exact le_trans (min_le_right _ _) ih

/-- Generic fold-min lower bound. -/
theorem le_foldr_min {f : ℕ → ℕ} {a b : ℕ} :
    ∀ {l : List ℕ}, b ≤ a → (∀ j ∈ l, b ≤ f j) →
      b ≤ l.foldr (fun x acc => min (f x) acc) a := by
  intro l
  induction l with
  | nil => intro hb _; exact hb
  | cons x t ih =>
    intro hb hall
    exact le_min (hall x (List.mem_cons_self x t))
      (ih hb fun j hj => hall j (List.mem_cons_of_mem x hj))

/-- Generic fold-min attainment: the fold equals the initial value or some
listed value. -/
theorem foldr_min_attained {f : ℕ → ℕ} {a : ℕ} :
    ∀ {l : List ℕ},
      l.foldr (fun x acc => min (f x) acc) a = a ∨
        ∃ j ∈ l, l.foldr (fun x acc => min (f x) acc) a = f j := by
  intro l
  induction l with
  | nil => exact Or.inl rfl
  | cons x t ih =>
    rcases min_cases (f x) (t.foldr (fun x acc => min (f x) acc) a) with
      ⟨heq, _⟩ | ⟨heq, _⟩
    · exact Or.inr ⟨x, List.mem_cons_self x t, heq⟩
    · rcases ih with h | ⟨j, hj, hjeq⟩
      · exact Or.inl (heq.trans h)
      · exact Or.inr ⟨j, List.mem_cons_of_mem x hj, heq.trans hjeq⟩

/-- Generic fold-min 1-Lipschitz comparison. -/
theorem foldr_min_succ {f g : ℕ → ℕ} {a : ℕ} :
    ∀ {l : List ℕ}, (∀ j ∈ l, f j ≤ g j + 1) →
      l.foldr (fun x acc => min (f x) acc) a ≤
        l.foldr (fun x acc => min (g x) acc) a + 1 := by
  intro l
  induction l with
  | nil => intro _; exact Nat.le_succ a
  | cons x t ih =>
    intro hall
    simp only [List.foldr_cons]
    have h1 : min (f x) (t.foldr (fun x acc => min (f x) acc) a) ≤
        min (g x + 1) (t.foldr (fun x acc => min (g x) acc) a + 1) :=
      min_le_min (hall x (List.mem_cons_self x t))
        (ih fun j hj => hall j (List.mem_cons_of_mem x hj))
    refine le_trans h1 (le_of_eq ?_)
    omega

/-- Unfolding `fwd` on a blocked cell. -/
theorem fwd_of_blocked {w : ℕ} {blk : ℕ → Bool} {i : ℕ} (hb : blk i = true) :
    fwd w blk i = 0 := by
  rw [fwd, hb]
  rfl

/-- Unfolding `fwd` on an unblocked cell. -/
theorem fwd_unfold {w : ℕ} {blk : ℕ → Bool} {i : ℕ} (hb : blk i = false) :
    fwd w blk i =
      min (min INFc (if 0 < i % w then fwd w blk (i - 1) + 1 else INFc))
        (if 0 < w ∧ w ≤ i then fwd w blk (i - w) + 1 else INFc) := by
  conv_lhs => rw [fwd, hb]
  rfl

/-- `fwd` is capped at `INF`. -/
theorem fwd_le_INF {w : ℕ} {blk : ℕ → Bool} {i : ℕ} : fwd w blk i ≤ INFc := by
  by_cases hb : blk i = true
  · rw [fwd_of_blocked hb]
    exact Nat.zero_le _
  · rw [fwd_unfold (by simpa using hb)]
    exact le_trans (min_le_left _ _) (min_le_left _ _)

/-- `fwd` is positive exactly on unblocked cells. -/
theorem fwd_pos_of_unblocked {w : ℕ} {blk : ℕ → Bool} {i : ℕ} (hb : blk i = false) :
    0 < fwd w blk i := by
  rw [fwd_unfold hb]
  have h1 : 0 < (if 0 < i % w then fwd w blk (i - 1) + 1 else INFc) := by
    split
    · omega
    · exact INFc_pos
  have h2 : 0 < (if 0 < w ∧ w ≤ i then fwd w blk (i - w) + 1 else INFc) := by
    split
    · omega
    · exact INFc_pos
  have h3 := INFc_pos
  omega

/-- Unfolding `bwd` where `fwd` vanishes (blocked cells). -/
theorem bwd_of_fwd_zero {w N : ℕ} {blk : ℕ → Bool} {i : ℕ}
    (hf : fwd w blk i = 0) : bwd w N blk i = 0 := by
  rw [bwd, hf]
  rfl

/-- Unfolding `bwd` on an unblocked cell. -/
theorem bwd_unfold {w N : ℕ} {blk : ℕ → Bool} {i : ℕ} (hf : fwd w blk i ≠ 0) :
    bwd w N blk i =
      min (min (fwd w blk i)
          (if i % w + 1 < w ∧ i < N then bwd w N blk (i + 1) + 1 else INFc))
        (if 0 < w ∧ i + w < N then bwd w N blk (i + w) + 1 else INFc) := by
  conv_lhs => rw [bwd, if_neg hf]

/-- `bwd` never exceeds the forward pass. -/
theorem bwd_le_fwd {w N : ℕ} {blk : ℕ → Bool} {i : ℕ} :
    bwd w N blk i ≤ fwd w blk i := by
  by_cases hf : fwd w blk i = 0
  · rw [bwd_of_fwd_zero hf, hf]
  · rw [bwd_unfold hf]
    exact le_trans (min_le_left _ _) (min_le_left _ _)

/-- The right-neighbour bound of the backward pass. -/
theorem bwd_le_right {w N : ℕ} {blk : ℕ → Bool} {i : ℕ}
    (hg : i % w + 1 < w ∧ i < N) :
    bwd w N blk i ≤ bwd w N blk (i + 1) + 1 := by
  by_cases hf : fwd w blk i = 0
  · rw [bwd_of_fwd_zero hf]
    exact Nat.zero_le _
  · rw [bwd_unfold hf]
    exact le_trans (min_le_left _ _)
      (le_trans (min_le_right _ _) (le_of_eq (if_pos hg)))

/-- The bottom-neighbour bound of the backward pass. -/
theorem bwd_le_down {w N : ℕ} {blk : ℕ → Bool} {i : ℕ}
    (hg : 0 < w ∧ i + w < N) :
    bwd w N blk i ≤ bwd w N blk (i + w) + 1 := by
  by_cases hf : fwd w blk i = 0
  · rw [bwd_of_fwd_zero hf]
    exact Nat.zero_le _
  · rw [bwd_unfold hf]
    exact le_trans (min_le_right _ _) (le_of_eq (if_pos hg))

end UAV

namespace UAV

/-! ### Linear-index coordinate arithmetic -/

/-- Coordinates of the left neighbour. -/
theorem coord_left {w i : ℕ} (hw : 0 < w) (hx : 0 < i % w) :
    (i - 1) % w = i % w - 1 ∧ (i - 1) / w = i / w := by
  have hd := Nat.div_add_mod i w
  have hrw : i % w < w := Nat.mod_lt _ hw
  have he : i - 1 = w * (i / w) + (i % w - 1) := by omega
  constructor
  · rw [he, Nat.mul_add_mod]
    exact Nat.mod_eq_of_lt (by omega)
  · rw [he, Nat.mul_add_div hw, Nat.div_eq_of_lt (show i % w - 1 < w by omega)]
    omega

/-- Coordinates of the top neighbour. -/
theorem coord_up {w i : ℕ} (hw : 0 < w) (hup : w ≤ i) :
    (i - w) % w = i % w ∧ (i - w) / w = i / w - 1 := by
  have hd := Nat.div_add_mod i w
  have hrw : i % w < w := Nat.mod_lt _ hw
  have hq : 0 < i / w := Nat.div_pos hup hw
  obtain ⟨q2, hq2⟩ : ∃ q2, i / w = q2 + 1 := ⟨i / w - 1, by omega⟩
  rw [hq2, Nat.mul_succ] at hd
  have he : i - w = w * q2 + i % w := by omega
  constructor
  · rw [he, Nat.mul_add_mod]
    exact Nat.mod_eq_of_lt hrw
  · rw [he, Nat.mul_add_div hw, Nat.div_eq_of_lt hrw]
    omega

/-- Coordinates of the right neighbour. -/
theorem coord_right {w i : ℕ} (hw : 0 < w) (hx : i % w + 1 < w) :
    (i + 1) % w = i % w + 1 ∧ (i + 1) / w = i / w := by
  have hd := Nat.div_add_mod i w
  have he : i + 1 = w * (i / w) + (i % w + 1) := by omega
  constructor
  · rw [he, Nat.mul_add_mod]
    exact Nat.mod_eq_of_lt (by omega)
  · rw [he, Nat.mul_add_div hw, Nat.div_eq_of_lt (show i % w + 1 < w by omega)]
    omega

/-- Coordinates of the bottom neighbour. -/
theorem coord_down {w i : ℕ} (hw : 0 < w) :
    (i + w) % w = i % w ∧ (i + w) / w = i / w + 1 := by
  have hd := Nat.div_add_mod i w
  have hrw : i % w < w := Nat.mod_lt _ hw
  have he : i + w = w * (i / w + 1) + i % w := by
    rw [Nat.mul_succ]
    omega
  constructor
  · rw [he, Nat.mul_add_mod]
    exact Nat.mod_eq_of_lt hrw
  · rw [he, Nat.mul_add_div hw, Nat.div_eq_of_lt hrw]

/-- Row bound of a valid linear index. -/
theorem row_lt {w h i : ℕ} (hw : 0 < w) (hi : i < w * h) : i / w < h := by
  rw [Nat.div_lt_iff_lt_mul hw, Nat.mul_comm]
  exact hi

/-- A valid linear index from valid coordinates. -/
theorem idx_lt {w h x y : ℕ} (hx : x < w) (hy : y < h) : w * y + x < w * h := by
  have h1 : w * y + x < w * (y + 1) := by
    rw [Nat.mul_succ]
    omega
  exact lt_of_lt_of_le h1 (Nat.mul_le_mul_left w hy)

/-- The right neighbour of a valid index is valid. -/
theorem right_lt {w h i : ℕ} (hw : 0 < w) (hi : i < w * h)
    (hx : i % w + 1 < w) : i + 1 < w * h := by
  have hd := Nat.div_add_mod i w
  have hq := row_lt hw hi
  have he : i + 1 = w * (i / w) + (i % w + 1) := by omega
  rw [he]
  exact idx_lt (by omega) hq

/-! ### The L1 distance and its properties -/

/-- `manh` in explicit coordinates, for reasoning with `omega`. -/
theorem manh_eq {w i j : ℕ} :
    manh w i j = (((i % w : ℕ) : ℤ) - ((j % w : ℕ) : ℤ)).natAbs +
      (((i / w : ℕ) : ℤ) - ((j / w : ℕ) : ℤ)).natAbs := rfl

/-- `manh` in pure natural-number form (for `omega`). -/
theorem manh_expr {w i j : ℕ} :
    manh w i j = (max (i % w) (j % w) - min (i % w) (j % w)) +
      (max (i / w) (j / w) - min (i / w) (j / w)) := by
  rw [manh_eq]
  generalize i % w = A
  generalize j % w = B
  generalize i / w = C
  generalize j / w = D
  omega

/-- `manh` vanishes only between identical valid cells. -/
theorem manh_eq_zero {w i j : ℕ} (hw : 0 < w) (hmanh : manh w i j = 0) : i = j := by
  rw [manh_eq] at hmanh
  have hdi := Nat.div_add_mod i w
  have hdj := Nat.div_add_mod j w
  have h1 : i % w = j % w := by omega
  have h2 : i / w = j / w := by omega
  rw [h1, h2] at hdi
  omega

/-- `manh` is bounded by the grid dimensions. -/
theorem manh_le {w h i j : ℕ} (hw : 0 < w) (hi : i < w * h) (hj : j < w * h) :
    manh w i j ≤ (w - 1) + (h - 1) := by
  have h1 : i % w < w := Nat.mod_lt _ hw
  have h2 : j % w < w := Nat.mod_lt _ hw
  have h3 := row_lt hw hi
  have h4 := row_lt hw hj
  rw [manh_eq]
  generalize i % w = A at h1 ⊢
  generalize j % w = B at h2 ⊢
  generalize i / w = C at h3 ⊢
  generalize j / w = D at h4 ⊢
  omega

/-- The capped distance-to-nearest-blocked is below each blocked cell's
distance. -/
theorem trueDist_le_manh {w N : ℕ} {blk : ℕ → Bool} {i j : ℕ}
    (hj : j < N) (hb : blk j = true) :
    trueDistL1 w N blk i ≤ manh w i j := by
  unfold trueDistL1
  exact foldr_min_le (by simp [hj, hb])

/-- The capped distance is below the cap. -/
theorem trueDist_le_INF {w N : ℕ} {blk : ℕ → Bool} {i : ℕ} :
    trueDistL1 w N blk i ≤ INFc := by
  unfold trueDistL1
  exact foldr_min_le_init

/-- Lower bounds on the capped distance. -/
theorem le_trueDist {w N : ℕ} {blk : ℕ → Bool} {i b : ℕ} (hb : b ≤ INFc)
    (hall : ∀ j, j < N → blk j = true → b ≤ manh w i j) :
    b ≤ trueDistL1 w N blk i := by
  unfold trueDistL1
  refine le_foldr_min hb ?_
  intro j hj
  simp only [List.mem_filter, List.mem_range] at hj
  exact hall j hj.1 hj.2

/-- The capped distance is attained at a blocked cell or equals the cap. -/
theorem trueDist_attained {w N : ℕ} {blk : ℕ → Bool} {i : ℕ} :
    trueDistL1 w N blk i = INFc ∨
      ∃ j, j < N ∧ blk j = true ∧ trueDistL1 w N blk i = manh w i j := by
  unfold trueDistL1
  rcases foldr_min_attained with h | ⟨j, hj, hjeq⟩
  · exact Or.inl h
  · simp only [List.mem_filter, List.mem_range] at hj
    exact Or.inr ⟨j, hj.1, hj.2, hjeq⟩

/-- 1-Lipschitz move of the capped distance between cells at L1 distance
one apart (stated through a pointwise hypothesis on `manh`). -/
theorem trueDist_le_step {w N : ℕ} {blk : ℕ → Bool} {i i2 : ℕ}
    (hman : ∀ j, manh w i j ≤ manh w i2 j + 1) :
    trueDistL1 w N blk i ≤ trueDistL1 w N blk i2 + 1 := by
  unfold trueDistL1
  exact foldr_min_succ fun j _ => hman j

end UAV

namespace UAV

/-! ### Chamfer correctness: the two passes compute the L1 distance -/

/-- After the forward pass, a cell is within L1 distance of every blocked
cell above-left of it (reachable by right/down propagation). -/
theorem fwd_le_manh_UL {w h : ℕ} {blk : ℕ → Bool} (hw : 0 < w) :
    ∀ i, i < w * h → ∀ j, j < w * h → blk j = true →
      j % w ≤ i % w → j / w ≤ i / w → fwd w blk i ≤ manh w i j := by
  intro i
  induction i using Nat.strong_induction_on with
  | _ i ih =>
    intro hi j hj hb hx hy
    by_cases hbi : blk i = true
    · rw [fwd_of_blocked hbi]
      exact Nat.zero_le _
    · have hbi2 : blk i = false := by simpa using hbi
      have hne : ¬(j % w = i % w ∧ j / w = i / w) := by
        rintro ⟨e1, e2⟩
        have hdi := Nat.div_add_mod i w
        have hdj := Nat.div_add_mod j w
        rw [e1, e2] at hdj
        have hij : i = j := by omega
        rw [hij, hb] at hbi2
        cases hbi2
      have hcase : j % w < i % w ∨ j / w < i / w := by omega
      rcases hcase with hlt | hlt
      · have hx0 : 0 < i % w := by omega
        have hcl := coord_left hw hx0
        have hstep : fwd w blk i ≤ fwd w blk (i - 1) + 1 := by
          rw [fwd_unfold hbi2]
          refine le_trans (min_le_left _ _)
            (le_trans (min_le_right _ _) (le_of_eq ?_))
          rw [if_pos hx0]
        have hi1 : i - 1 < i := by
          have := Nat.mod_le i w
          omega
        have harg1 : j % w ≤ (i - 1) % w := by
          rw [hcl.1]
          omega
        have harg2 : j / w ≤ (i - 1) / w := by
          rw [hcl.2]
          exact hy
        have hih := ih (i - 1) hi1 (by omega) j hj hb harg1 harg2
        have hmanh : manh w (i - 1) j + 1 = manh w i j := by
          rw [manh_expr, manh_expr, hcl.1, hcl.2]
          set A2 := i % w with hA2
          set B2 := j % w with hB2
          set C2 := i / w with hC2
          set D2 := j / w with hD2
          simp only [max_def, min_def]
          split_ifs <;> omega
        omega
      · have hup : w ≤ i := by
          by_contra hcon
          push_neg at hcon
          rw [Nat.div_eq_of_lt hcon] at hlt
          exact absurd hlt (Nat.not_lt_zero _)
        have hcu := coord_up hw hup
        have hstep : fwd w blk i ≤ fwd w blk (i - w) + 1 := by
          rw [fwd_unfold hbi2]
          refine le_trans (min_le_right _ _) (le_of_eq ?_)
          rw [if_pos ⟨hw, hup⟩]
        have hiw : i - w < i := by omega
        have harg1 : j % w ≤ (i - w) % w := by
          rw [hcu.1]
          exact hx
        have harg2 : j / w ≤ (i - w) / w := by
          rw [hcu.2]
          exact Nat.le_pred_of_lt hlt
        have hih := ih (i - w) hiw (by omega) j hj hb harg1 harg2
        have hmanh : manh w (i - w) j + 1 = manh w i j := by
          rw [manh_expr, manh_expr, hcu.1, hcu.2]
          set A2 := i % w with hA2
          set B2 := j % w with hB2
          set C2 := i / w with hC2
          set D2 := j / w with hD2
          simp only [max_def, min_def]
          split_ifs <;> omega
        omega

/-- The forward pass never undershoots the (capped) true distance. -/
theorem trueDist_le_fwd {w h : ℕ} {blk : ℕ → Bool} (hw : 0 < w) :
    ∀ i, i < w * h → trueDistL1 w (w * h) blk i ≤ fwd w blk i := by
  intro i
  induction i using Nat.strong_induction_on with
  | _ i ih =>
    intro hi
    by_cases hbi : blk i = true
    · rw [fwd_of_blocked hbi]
      have h0 := trueDist_le_manh (w := w) (i := i) hi hbi
      have hz : manh w i i = 0 := by
        rw [manh_expr]
        set A2 := i % w with hA2
        set C2 := i / w with hC2
        simp only [max_def, min_def]
        split_ifs <;> omega
      omega
    · have hbi2 : blk i = false := by simpa using hbi
      rw [fwd_unfold hbi2]
      refine le_min (le_min trueDist_le_INF ?_) ?_
      · by_cases hx : 0 < i % w
        · rw [if_pos hx]
          have hcl := coord_left hw hx
          have hstep : trueDistL1 w (w * h) blk i ≤
              trueDistL1 w (w * h) blk (i - 1) + 1 := by
            apply trueDist_le_step
            intro j
            rw [manh_expr, manh_expr, hcl.1, hcl.2]
            set A2 := i % w with hA2
            set B2 := j % w with hB2
            set C2 := i / w with hC2
            set D2 := j / w with hD2
            omega
          have hi1 : i - 1 < i := by
            have := Nat.mod_le i w
            omega
          have hih := ih (i - 1) hi1 (by omega)
          omega
        · rw [if_neg hx]
          exact trueDist_le_INF
      · by_cases hup : 0 < w ∧ w ≤ i
        · rw [if_pos hup]
          have hcu := coord_up hw hup.2
          have hq := Nat.div_pos hup.2 hw
          have hstep : trueDistL1 w (w * h) blk i ≤
              trueDistL1 w (w * h) blk (i - w) + 1 := by
            apply trueDist_le_step
            intro j
            rw [manh_expr, manh_expr, hcu.1, hcu.2]
            set A2 := i % w with hA2
            set B2 := j % w with hB2
            set C2 := i / w with hC2
            set D2 := j / w with hD2
            omega
          have hih := ih (i - w) (by omega) (by omega)
          omega
        · rw [if_neg hup]
          exact trueDist_le_INF

/-- The backward pass never undershoots the (capped) true distance. -/
theorem trueDist_le_bwd {w h : ℕ} {blk : ℕ → Bool} (hw : 0 < w) :
    ∀ d i, i < w * h → w * h - i ≤ d →
      trueDistL1 w (w * h) blk i ≤ bwd w (w * h) blk i := by
  intro d
  induction d with
  | zero =>
    intro i hi hd
    exact absurd hd (by omega)
  | succ d ihd =>
    intro i hi hd
    by_cases hf : fwd w blk i = 0
    · rw [bwd_of_fwd_zero hf]
      have hbi : blk i = true := by
        by_contra hcon
        have := @fwd_pos_of_unblocked w blk i (by simpa using hcon)
        omega
      have h0 := trueDist_le_manh (w := w) (i := i) hi hbi
      have hz : manh w i i = 0 := by
        rw [manh_expr]
        set A2 := i % w with hA2
        set C2 := i / w with hC2
        simp only [max_def, min_def]
        split_ifs <;> omega
      omega
    · rw [bwd_unfold hf]
      refine le_min (le_min (trueDist_le_fwd hw i hi) ?_) ?_
      · by_cases hg : i % w + 1 < w ∧ i < w * h
        · rw [if_pos hg]
          have hcr := coord_right hw hg.1
          have hstep : trueDistL1 w (w * h) blk i ≤
              trueDistL1 w (w * h) blk (i + 1) + 1 := by
            apply trueDist_le_step
            intro j
            rw [manh_expr, manh_expr, hcr.1, hcr.2]
            set A2 := i % w with hA2
            set B2 := j % w with hB2
            set C2 := i / w with hC2
            set D2 := j / w with hD2
            omega
          have hih := ihd (i + 1) (right_lt hw hi hg.1) (by omega)
          omega
        · rw [if_neg hg]
          exact trueDist_le_INF
      · by_cases hg : 0 < w ∧ i + w < w * h
        · rw [if_pos hg]
          have hcd := coord_down (i := i) hw
          have hstep : trueDistL1 w (w * h) blk i ≤
              trueDistL1 w (w * h) blk (i + w) + 1 := by
            apply trueDist_le_step
            intro j
            rw [manh_expr, manh_expr, hcd.1, hcd.2]
            set A2 := i % w with hA2
            set B2 := j % w with hB2
            set C2 := i / w with hC2
            set D2 := j / w with hD2
            omega
          have hih := ihd (i + w) hg.2 (by omega)
          omega
        · rw [if_neg hg]
          exact trueDist_le_INF

/-- Rightward propagation chain of the backward pass. -/
theorem bwd_chain_right {w h : ℕ} {blk : ℕ → Bool} (hw : 0 < w) :
    ∀ k i, i < w * h → i % w + k < w →
      bwd w (w * h) blk i ≤ bwd w (w * h) blk (i + k) + k := by
  intro k
  induction k with
  | zero =>
    intro i _ _
    simp
  | succ k ihk =>
    intro i hi hxk
    have hg : i % w + 1 < w ∧ i < w * h := ⟨by omega, hi⟩
    have h1 := @bwd_le_right w (w * h) blk i hg
    have hcr := coord_right hw hg.1
    have h2 := ihk (i + 1) (right_lt hw hi hg.1) (by rw [hcr.1]; omega)
    have he : i + (k + 1) = i + 1 + k := by omega
    rw [he]
    omega

/-- Downward propagation chain of the backward pass. -/
theorem bwd_chain_down {w h : ℕ} {blk : ℕ → Bool} (hw : 0 < w) :
    ∀ k i, i + w * k < w * h →
      bwd w (w * h) blk i ≤ bwd w (w * h) blk (i + w * k) + k := by
  intro k
  induction k with
  | zero =>
    intro i _
    simp
  | succ k ihk =>
    intro i hik
    have hms : w * (k + 1) = w * k + w := by ring
    have hwk : i + w < w * h := by omega
    have h1 := @bwd_le_down w (w * h) blk i ⟨hw, hwk⟩
    have h2 := ihk (i + w) (by omega)
    have he : i + w * (k + 1) = i + w + w * k := by ring
    rw [he]
    omega

/-- After both passes, every cell is within L1 distance of every blocked
cell, whatever the quadrant. -/
theorem bwd_le_manh {w h : ℕ} {blk : ℕ → Bool} (hw : 0 < w)
    {i j : ℕ} (hi : i < w * h) (hj : j < w * h) (hb : blk j = true) :
    bwd w (w * h) blk i ≤ manh w i j := by
  have hdi := Nat.div_add_mod i w
  have hdj := Nat.div_add_mod j w
  have hxi : i % w < w := Nat.mod_lt _ hw
  have hxj : j % w < w := Nat.mod_lt _ hw
  have hyi := row_lt hw hi
  have hyj := row_lt hw hj
  by_cases hx : j % w ≤ i % w
  · by_cases hy : j / w ≤ i / w
    · exact le_trans bwd_le_fwd (fwd_le_manh_UL hw i hi j hj hb hx hy)
    · push_neg at hy
      set k := j / w - i / w with hk
      have hm : i + w * k = w * (j / w) + i % w := by
        have h1 : w * (i / w) + w * k = w * (j / w) := by
          rw [← Nat.mul_add]
          congr 1
          omega
        omega
      have hmlt : w * (j / w) + i % w < w * h := idx_lt hxi hyj
      have hchain := @bwd_chain_down w h blk hw k i (by rw [hm]; exact hmlt)
      rw [hm] at hchain
      have hmmod : (w * (j / w) + i % w) % w = i % w := by
        rw [Nat.mul_add_mod]
        exact Nat.mod_eq_of_lt hxi
      have hmdiv : (w * (j / w) + i % w) / w = j / w := by
        rw [Nat.mul_add_div hw, Nat.div_eq_of_lt hxi]
        omega
      have hfm := fwd_le_manh_UL hw (w * (j / w) + i % w) hmlt j hj hb
        (by rw [hmmod]; exact hx) (by rw [hmdiv])
      have hbf : bwd w (w * h) blk (w * (j / w) + i % w) ≤
          fwd w blk (w * (j / w) + i % w) := bwd_le_fwd
      have hman : manh w (w * (j / w) + i % w) j + k = manh w i j := by
        rw [manh_expr, manh_expr, hmmod, hmdiv]
        set A2 := i % w with hA2
        set B2 := j % w with hB2
        set C2 := i / w with hC2
        set D2 := j / w with hD2
        simp only [max_def, min_def]
        split_ifs <;> omega
      omega
  · push_neg at hx
    by_cases hy : j / w ≤ i / w
    · set k := j % w - i % w with hk
      have hm : i + k = w * (i / w) + j % w := by omega
      have hchain := @bwd_chain_right w h blk hw k i hi (by omega)
      rw [hm] at hchain
      have hmlt : w * (i / w) + j % w < w * h := idx_lt hxj hyi
      have hmmod : (w * (i / w) + j % w) % w = j % w := by
        rw [Nat.mul_add_mod]
        exact Nat.mod_eq_of_lt hxj
      have hmdiv : (w * (i / w) + j % w) / w = i / w := by
        rw [Nat.mul_add_div hw, Nat.div_eq_of_lt hxj]
        omega
      have hfm := fwd_le_manh_UL hw (w * (i / w) + j % w) hmlt j hj hb
        (by rw [hmmod]) (by rw [hmdiv]; exact hy)
      have hbf : bwd w (w * h) blk (w * (i / w) + j % w) ≤
          fwd w blk (w * (i / w) + j % w) := bwd_le_fwd
      have hman : manh w (w * (i / w) + j % w) j + k = manh w i j := by
        rw [manh_expr, manh_expr, hmmod, hmdiv]
        set A2 := i % w with hA2
        set B2 := j % w with hB2
        set C2 := i / w with hC2
        set D2 := j / w with hD2
        simp only [max_def, min_def]
        split_ifs <;> omega
      omega
    · push_neg at hy
      set k1 := j % w - i % w with hk1
      set k2 := j / w - i / w with hk2
      have hm1 : i + k1 = w * (i / w) + j % w := by omega
      have hchain1 := @bwd_chain_right w h blk hw k1 i hi (by omega)
      rw [hm1] at hchain1
      have hm2 : (w * (i / w) + j % w) + w * k2 = j := by
        have h1 : w * (i / w) + w * k2 = w * (j / w) := by
          rw [← Nat.mul_add]
          congr 1
          omega
        omega
      have hchain2 := @bwd_chain_down w h blk hw k2 (w * (i / w) + j % w)
        (by rw [hm2]; exact hj)
      rw [hm2] at hchain2
      have hbj : bwd w (w * h) blk j = 0 := bwd_of_fwd_zero (fwd_of_blocked hb)
      have hman : manh w i j = k1 + k2 := by
        rw [manh_expr]
        set A2 := i % w with hA2
        set B2 := j % w with hB2
        set C2 := i / w with hC2
        set D2 := j / w with hD2
        simp only [max_def, min_def]
        split_ifs <;> omega
      omega

/-- The two Chamfer passes compute exactly the capped L1 distance
transform. -/
theorem bwd_eq_trueDist {w h : ℕ} {blk : ℕ → Bool} (hw : 0 < w)
    {i : ℕ} (hi : i < w * h) :
    bwd w (w * h) blk i = trueDistL1 w (w * h) blk i := by
  apply le_antisymm
  · refine le_trueDist (le_trans bwd_le_fwd fwd_le_INF) ?_
    intro j hj hb
    exact bwd_le_manh hw hi hj hb
  · exact trueDist_le_bwd hw (w * h) i hi (by omega)

/-- `w_cells` is at least 1 by the `max(1, ...)` clamp. -/
theorem wCellsOf_pos (world : World) (cellSize : ℚ) : 0 < wCellsOf world cellSize := by
  unfold wCellsOf
  have h := le_max_left (1 : ℤ) ⌊world.size.1 / cellSize⌋
  omega

/-- `h_cells` is at least 1 by the `max(1, ...)` clamp. -/
theorem hCellsOf_pos (world : World) (cellSize : ℚ) : 0 < hCellsOf world cellSize := by
  unfold hCellsOf
  have h := le_max_left (1 : ℤ) ⌊world.size.2.1 / cellSize⌋
  omega

/-- Reading the clearance list of the exact builder at a valid index gives
the backward-pass value scaled by the cell size. -/
theorem build_clearance_getD (world : World) (cellSize inflate : ℚ) {i : ℕ}
    (hi : i < wCellsOf world cellSize * hCellsOf world cellSize) :
    (GridCacheBMHA.build world cellSize inflate).clearance_m.getD i 0 =
      (bwd (wCellsOf world cellSize)
        (wCellsOf world cellSize * hCellsOf world cellSize)
        (blockedIdx world cellSize inflate) i : ℚ) * cellSize := by
  unfold GridCacheBMHA.build
  rw [List.getD_eq_getElem _ _ (by simpa using hi)]
  simp

/-- C3 (amended to the exact builder `GridCacheBMHA.build` only; the
fallback builder violates the claim): on a grid with at least one blocked
cell and dimensions below the `INF` cap, the stored clearance at every
valid cell equals `cell × trueDistL1`, the capped exact L1 cell distance to
the nearest blocked cell; that distance is attained at some blocked cell,
is a lower bound over all blocked cells, and the clearance vanishes exactly
on blocked cells. -/
theorem build_clearance_exact (world : World) (cellSize inflate : ℚ)
    (hc : 0 < cellSize) (i : ℕ)
    (hi : i < wCellsOf world cellSize * hCellsOf world cellSize)
    (hcap : wCellsOf world cellSize + hCellsOf world cellSize ≤ INFc)
    (hex : ∃ j0, j0 < wCellsOf world cellSize * hCellsOf world cellSize ∧
      blockedIdx world cellSize inflate j0 = true) :
    (GridCacheBMHA.build world cellSize inflate).clearance_m.getD i 0 =
      (trueDistL1 (wCellsOf world cellSize)
        (wCellsOf world cellSize * hCellsOf world cellSize)
        (blockedIdx world cellSize inflate) i : ℚ) * cellSize ∧
    (∃ j, j < wCellsOf world cellSize * hCellsOf world cellSize ∧
      blockedIdx world cellSize inflate j = true ∧
      trueDistL1 (wCellsOf world cellSize)
        (wCellsOf world cellSize * hCellsOf world cellSize)
        (blockedIdx world cellSize inflate) i =
        manh (wCellsOf world cellSize) i j) ∧
    (∀ j, j < wCellsOf world cellSize * hCellsOf world cellSize →
      blockedIdx world cellSize inflate j = true →
      trueDistL1 (wCellsOf world cellSize)
        (wCellsOf world cellSize * hCellsOf world cellSize)
        (blockedIdx world cellSize inflate) i ≤
        manh (wCellsOf world cellSize) i j) ∧
    ((GridCacheBMHA.build world cellSize inflate).clearance_m.getD i 0 = 0 ↔
      blockedIdx world cellSize inflate i = true) := by
  have hw := wCellsOf_pos world cellSize
  have hh := hCellsOf_pos world cellSize
  have hbridge := build_clearance_getD world cellSize inflate hi
  set wC := wCellsOf world cellSize with hwC
  set hC := hCellsOf world cellSize with hhC
  set blk := blockedIdx world cellSize inflate with hblk
  have heq : bwd wC (wC * hC) blk i = trueDistL1 wC (wC * hC) blk i :=
    @bwd_eq_trueDist wC hC blk hw i hi
  have hlt : trueDistL1 wC (wC * hC) blk i < INFc := by
    obtain ⟨j0, hj0, hb0⟩ := hex
    have h1 := trueDist_le_manh (w := wC) (i := i) hj0 hb0
    have h2 := manh_le hw hi hj0
    omega
  have hatt : ∃ j, j < wC * hC ∧ blk j = true ∧
      trueDistL1 wC (wC * hC) blk i = manh wC i j := by
    rcases @trueDist_attained wC (wC * hC) blk i with h | h
    · exact absurd h (Nat.ne_of_lt hlt)
    · exact h
  refine ⟨by rw [hbridge, heq], hatt, ?_, ?_⟩
  · intro j hj hb
    exact trueDist_le_manh hj hb
  · rw [hbridge, heq]
    constructor
    · intro h0
      have hz : trueDistL1 wC (wC * hC) blk i = 0 := by
        rcases mul_eq_zero.mp h0 with h | h
        · exact_mod_cast h
        · exact absurd h (ne_of_gt hc)
      obtain ⟨j, hj, hb, hjeq⟩ := hatt
      rw [hz] at hjeq
      have hij : i = j := manh_eq_zero hw hjeq.symm
      rw [hij]
      exact hb
    · intro hb
      have h1 := trueDist_le_manh (w := wC) (i := i) hi hb
      have h2 : manh wC i i = 0 := by simp [manh]
      rw [h2] at h1
      rw [Nat.le_zero.mp h1]
      norm_num

/-- Witness for the amended clearance claim on a concrete one-cell world
with one obstacle. -/
theorem build_clearance_exact_witness :
    (0 : ℚ) < 20 ∧
    0 < wCellsOf ⟨(1, 1, 50), [⟨"b", ⟨1/2, 1/2, 0⟩, ⟨1, 1, 1⟩⟩]⟩ (20 : ℚ) *
        hCellsOf ⟨(1, 1, 50), [⟨"b", ⟨1/2, 1/2, 0⟩, ⟨1, 1, 1⟩⟩]⟩ (20 : ℚ) ∧
    wCellsOf ⟨(1, 1, 50), [⟨"b", ⟨1/2, 1/2, 0⟩, ⟨1, 1, 1⟩⟩]⟩ (20 : ℚ) +
        hCellsOf ⟨(1, 1, 50), [⟨"b", ⟨1/2, 1/2, 0⟩, ⟨1, 1, 1⟩⟩]⟩ (20 : ℚ) ≤ INFc ∧
    blockedIdx ⟨(1, 1, 50), [⟨"b", ⟨1/2, 1/2, 0⟩, ⟨1, 1, 1⟩⟩]⟩ 20 6 0 = true ∧
    ((GridCacheBMHA.build ⟨(1, 1, 50), [⟨"b", ⟨1/2, 1/2, 0⟩, ⟨1, 1, 1⟩⟩]⟩
        20 6).clearance_m.getD 0 0 = 0 ↔
      blockedIdx ⟨(1, 1, 50), [⟨"b", ⟨1/2, 1/2, 0⟩, ⟨1, 1, 1⟩⟩]⟩ 20 6 0 = true) := by
  have hw : wCellsOf ⟨(1, 1, 50), [⟨"b", ⟨1/2, 1/2, 0⟩, ⟨1, 1, 1⟩⟩]⟩ (20 : ℚ) = 1 := by
    norm_num [wCellsOf]
  have hh : hCellsOf ⟨(1, 1, 50), [⟨"b", ⟨1/2, 1/2, 0⟩, ⟨1, 1, 1⟩⟩]⟩ (20 : ℚ) = 1 := by
    norm_num [hCellsOf]
  have hb : blockedIdx ⟨(1, 1, 50), [⟨"b", ⟨1/2, 1/2, 0⟩, ⟨1, 1, 1⟩⟩]⟩ 20 6 0 = true := by
    unfold blockedIdx coversCell rectOverlapsCell
    rw [hw, hh]
    norm_num [max_def, min_def]
  refine ⟨by norm_num, by rw [hw, hh]; norm_num, by rw [hw, hh]; norm_num [INFc], hb, ?_⟩
  exact (build_clearance_exact ⟨(1, 1, 50), [⟨"b", ⟨1/2, 1/2, 0⟩, ⟨1, 1, 1⟩⟩]⟩ 20 6
    (by norm_num) 0 (by rw [hw, hh]; norm_num) (by rw [hw, hh]; norm_num [INFc])
    ⟨0, by rw [hw, hh]; norm_num, hb⟩).2.2.2

/-- C3 counterexample for the original claim: the fallback builder marks
the obstacle's centre cell blocked yet stores the constant clearance
`cell × 2` there, so `clearance_m[c] / cell` is `2`, not the exact L1
distance `0`, at a blocked cell. -/
theorem fallback_clearance_not_L1 :
    (GridCacheBMHA.buildFallback ⟨(2, 1, 50), [⟨"b", ⟨1/2, 1/2, 0⟩, ⟨1, 1, 1⟩⟩]⟩
        1 6).blocked.getD 0 false = true ∧
    (GridCacheBMHA.buildFallback ⟨(2, 1, 50), [⟨"b", ⟨1/2, 1/2, 0⟩, ⟨1, 1, 1⟩⟩]⟩
        1 6).clearance_m.getD 0 0 = 2 ∧ (2 : ℚ) ≠ 0 := by
  have hw : wCellsOf ⟨(2, 1, 50), [⟨"b", ⟨1/2, 1/2, 0⟩, ⟨1, 1, 1⟩⟩]⟩ (1 : ℚ) = 2 := by
    norm_num [wCellsOf]
    decide
  have hh : hCellsOf ⟨(2, 1, 50), [⟨"b", ⟨1/2, 1/2, 0⟩, ⟨1, 1, 1⟩⟩]⟩ (1 : ℚ) = 1 := by
    norm_num [hCellsOf]
  unfold GridCacheBMHA.buildFallback
  rw [hw, hh]
  norm_num [max_def, min_def]


end UAV
